import Mathlib

/-!
Shallow embedding of `pine/training.py`: the `Backpropagation` trainer
(forward pass delegated to an external collaborator, backward pass with
per-neuron delta/gradient computation and immediate parameter updates,
optional unsupervised sparsity bookkeeping), the activation-function
variants used by the trainer, and the `parallel_train` orchestration with
its averaging merge.

Conventions of the embedding:
* Python floats are modelled as exact rationals (`ℚ`); the transcendental
  `activate` of the Logistic activation is modelled over `ℝ` with the
  float-overflow threshold made explicit.
* Python `list` index errors (`IndexError`) and use of an unbound local
  (`NameError`) make the call fail, so the fallible operations return
  `Option`.
* In-place mutation is modelled by explicit state passing.  The aliasing
  of `this_layer_weights` entries with the mutated `neuron.weights` lists
  means the weight vectors handed to the next (more backward) layer are
  the post-update vectors, which the embedding reproduces by recording the
  updated neuron's weights.
* `compute_network_output` lives in an external module (not part of this
  repository's source), so the forward pass is a parameter `forward` of
  the trainer; it returns the network with `local_output`/`inputs` caches
  populated.
-/

namespace Pine

/-- A neuron as used by the trainer: a weight vector (one weight per
incoming connection), a scalar threshold (bias), and the caches written
by the most recent forward pass (`local_output`, `inputs`). -/
structure Neuron where
  weights : List ℚ
  threshold : ℚ
  local_output : ℚ
  inputs : List ℚ
deriving DecidableEq

/-- The three activation-function classes defined in `training.py`. -/
inductive ActivationFunction where
  | Logistic
  | Tanh
  | Linear
deriving DecidableEq

/-- The `name` attribute set in each activation class constructor. -/
def ActivationFunction.name : ActivationFunction → String
  | .Logistic => "Logistic"
  | .Tanh => "Tanh"
  | .Linear => "Linear"

/-- The `derivative` methods: Logistic `fx*(1.0-fx)`, Tanh
`(1.0-fx)*(1.0+fx)`, Linear `1`. -/
def ActivationFunction.derivative : ActivationFunction → ℚ → ℚ
  | .Logistic, fx => fx * (1.0 - fx)
  | .Tanh, fx => (1.0 - fx) * (1.0 + fx)
  | .Linear, _ => 1

/-- A layer: its neurons plus the shared activation function. -/
structure Layer where
  neurons : List Neuron
  activation_function : ActivationFunction
deriving DecidableEq

/-- A network: an ordered list of layers (input-most first). -/
structure Network where
  layers : List Layer
deriving DecidableEq

/-- The `Backpropagation` trainer object: learning rate and the (unused)
momentum coefficient. -/
structure Backpropagation where
  learning_rate : ℚ
  momentum_coef : ℚ

/-- Sparsity parameter `rho = 0.05` set in `train` for unsupervised mode. -/
def rho : ℚ := 0.05

/-- Sparsity learning rate `beta = 0.2` set in `train` for unsupervised
mode. -/
def beta : ℚ := 0.2

/-- The weight-update loop
`for ij, input_ij in enumerate(neuron.inputs): neuron.weights[ij] -= self.learning_rate * (delta * input_ij)`.
Fails (IndexError) when there are more inputs than weights; weights past
the inputs are left unchanged. -/
def updateWeights (lr delta : ℚ) : List ℚ → List ℚ → Option (List ℚ)
  | [], ws => some ws
  | _ :: _, [] => none
  | input_ij :: rest, w :: ws =>
    match updateWeights lr delta rest ws with
    | none => none
    | some ws2 => some ((w - lr * (delta * input_ij)) :: ws2)

/-- The running sum
`sum_value += weights[j] * next_delta` over `zip(next_layer_deltas, next_layer_weights)`,
threading the accumulator; fails when some forward-layer weight vector has
no entry `j`. -/
def hiddenSumAux (j : ℕ) (acc : ℚ) : List (ℚ × List ℚ) → Option ℚ
  | [] => some acc
  | p :: ps =>
    match p.2.get? j with
    | none => none
    | some w => hiddenSumAux j (acc + w * p.1) ps

/-- `sum_value` for a hidden neuron `j`: Σ over the next (forward) layer of
`weights[j] * next_delta`, starting from `0.0`. -/
def hiddenSum (j : ℕ) (next_layer_deltas : List ℚ) (next_layer_weights : List (List ℚ)) :
    Option ℚ :=
  hiddenSumAux j 0.0 (next_layer_deltas.zip next_layer_weights)

/-- The per-neuron delta: output-layer neurons branch on the activation
name (`local_output - target[j]` for Logistic, times the derivative for
Tanh/Linear); hidden neurons use `derivative(local_output) * sum_value`. -/
def computeDelta (isOutputLayer : Bool) (af : ActivationFunction)
    (target_output_vector next_layer_deltas : List ℚ)
    (next_layer_weights : List (List ℚ)) (j : ℕ) (neuron : Neuron) : Option ℚ :=
  if isOutputLayer then
    match target_output_vector.get? j with
    | none => none
    | some t =>
      if af.name = "Logistic" then some (neuron.local_output - t)
      else some ((neuron.local_output - t) * af.derivative neuron.local_output)
  else
    match hiddenSum j next_layer_deltas next_layer_weights with
    | none => none
    | some sum_value => some (af.derivative neuron.local_output * sum_value)

/-- Processing of one neuron `j` of the current layer: compute its delta,
immediately update its weights and threshold, and (for hidden layers in
unsupervised mode) update `rho_estimates[j]` and apply the extra threshold
correction.  Returns the updated neuron, its delta, and the updated
`rho_estimates`. -/
def processNeuron (lr : ℚ) (unsupervised isOutputLayer : Bool) (af : ActivationFunction)
    (target_output_vector next_layer_deltas : List ℚ)
    (next_layer_weights : List (List ℚ)) (j : ℕ) (neuron : Neuron)
    (rho_estimates : List ℚ) : Option (Neuron × ℚ × List ℚ) :=
  match computeDelta isOutputLayer af target_output_vector next_layer_deltas
      next_layer_weights j neuron with
  | none => none
  | some delta =>
    match updateWeights lr delta neuron.inputs neuron.weights with
    | none => none
    | some ws =>
      let th := neuron.threshold - lr * (delta * 1)
      if unsupervised && !isOutputLayer then
        match rho_estimates.get? j with
        | none => none
        | some r =>
          let r2 := 0.999 * r + 0.001 * neuron.local_output
          some ({ neuron with weights := ws, threshold := th - lr * beta * (r2 - rho) },
                delta, rho_estimates.set j r2)
      else
        some ({ neuron with weights := ws, threshold := th }, delta, rho_estimates)

/-- The `for j, neuron in enumerate(layer.neurons)` loop: processes the
neurons in order, accumulating `this_layer_deltas` and
`this_layer_weights`.  Because Python appends the `neuron.weights` list by
reference and then mutates it in place, the recorded weight vector is the
post-update one. -/
def processNeurons (lr : ℚ) (unsupervised isOutputLayer : Bool) (af : ActivationFunction)
    (target_output_vector next_layer_deltas : List ℚ)
    (next_layer_weights : List (List ℚ)) :
    ℕ → List Neuron → List ℚ → Option (List Neuron × List ℚ × List (List ℚ) × List ℚ)
  | _, [], rho_estimates => some ([], [], [], rho_estimates)
  | j, neuron :: ns, rho_estimates =>
    match processNeuron lr unsupervised isOutputLayer af target_output_vector
        next_layer_deltas next_layer_weights j neuron rho_estimates with
    | none => none
    | some (n2, delta, rho2) =>
      match processNeurons lr unsupervised isOutputLayer af target_output_vector
          next_layer_deltas next_layer_weights (j + 1) ns rho2 with
      | none => none
      | some (ns2, ds, wss, rho3) =>
        some (n2 :: ns2, delta :: ds, n2.weights :: wss, rho3)

/-- Processing of one layer of the backward pass. -/
def processLayer (lr : ℚ) (unsupervised isOutputLayer : Bool) (layer : Layer)
    (target_output_vector next_layer_deltas : List ℚ)
    (next_layer_weights : List (List ℚ)) (rho_estimates : List ℚ) :
    Option (Layer × List ℚ × List (List ℚ) × List ℚ) :=
  match processNeurons lr unsupervised isOutputLayer layer.activation_function
      target_output_vector next_layer_deltas next_layer_weights 0 layer.neurons
      rho_estimates with
  | none => none
  | some (ns2, ds, wss, rho2) =>
    some ({ layer with neurons := ns2 }, ds, wss, rho2)

/-- The `for layer in reversed(network.layers)` loop: the list is given in
processing order (output layer first); the `isOutputLayer` flag is true
only for the first processed layer, and each layer hands its deltas and
(post-update) weight vectors to the next, more backward, one. -/
def processLayersRev (lr : ℚ) (unsupervised : Bool) (target_output_vector : List ℚ) :
    List Layer → Bool → List ℚ → List (List ℚ) → List ℚ → Option (List Layer × List ℚ)
  | [], _, _, _, rho_estimates => some ([], rho_estimates)
  | layer :: restLayers, isOutputLayer, next_layer_deltas, next_layer_weights,
      rho_estimates =>
    match processLayer lr unsupervised isOutputLayer layer target_output_vector
        next_layer_deltas next_layer_weights rho_estimates with
    | none => none
    | some (layer2, ds, wss, rho2) =>
      match processLayersRev lr unsupervised target_output_vector restLayers false
          ds wss rho2 with
      | none => none
      | some (rest2, rho3) => some (layer2 :: rest2, rho3)

/-- One example's backward pass over the whole (already forward-primed)
network. -/
def backwardExample (lr : ℚ) (unsupervised : Bool) (network : Network)
    (target_output_vector : List ℚ) (rho_estimates : List ℚ) :
    Option (Network × List ℚ) :=
  match processLayersRev lr unsupervised target_output_vector network.layers.reverse
      true [] [] rho_estimates with
  | none => none
  | some (rev2, rho2) => some ({ layers := rev2.reverse }, rho2)

/-- One training example: prime the network with the forward pass
(`network.compute_network_output(input_vector)`, an external collaborator
passed in as `forward`), then run the backward pass against the target
vector (`training_example[0]`). -/
def trainExample (forward : Network → List ℚ → Network) (lr : ℚ) (unsupervised : Bool)
    (st : Network × List ℚ) (training_example : List ℚ × List ℚ) :
    Option (Network × List ℚ) :=
  backwardExample lr unsupervised (forward st.1 training_example.2) training_example.1
    st.2

/-- One full pass (epoch) over the example list, in order. -/
def trainPass (forward : Network → List ℚ → Network) (lr : ℚ) (unsupervised : Bool) :
    List (List ℚ × List ℚ) → Network × List ℚ → Option (Network × List ℚ)
  | [], st => some st
  | ex :: rest, st =>
    match trainExample forward lr unsupervised st ex with
    | none => none
    | some st2 => trainPass forward lr unsupervised rest st2

/-- The `for iteration_counter in range(iterations)` loop. -/
def trainLoop (forward : Network → List ℚ → Network) (lr : ℚ) (unsupervised : Bool)
    (training_examples : List (List ℚ × List ℚ)) :
    ℕ → Network × List ℚ → Option (Network × List ℚ)
  | 0, st => some st
  | n + 1, st =>
    match trainPass forward lr unsupervised training_examples st with
    | none => none
    | some st2 => trainLoop forward lr unsupervised training_examples n st2

/-- `rho_estimates = [0] * len(network.layers[0].neurons)`: fails when the
network has no layers. -/
def initialRhoEstimates (network : Network) : Option (List ℚ) :=
  match network.layers.get? 0 with
  | none => none
  | some l => some (List.replicate l.neurons.length (0 : ℚ))

/-- `Backpropagation.train`.  Returns the trained network together with
the value stored into `self.iterations` after the loop (the final value of
`iteration_counter`).  Fails (`none`) on any index error, and on
`iterations = 0` where reading the unbound `iteration_counter` raises. -/
def Backpropagation.train (self : Backpropagation)
    (forward : Network → List ℚ → Network) (network : Network)
    (training_examples : List (List ℚ × List ℚ)) (iterations : ℕ)
    (unsupervised : Bool) : Option (Network × ℕ) :=
  match (if unsupervised then initialRhoEstimates network else some []) with
  | none => none
  | some rho_estimates =>
    if iterations = 0 then none
    else
      match trainLoop forward self.learning_rate unsupervised training_examples
          iterations (network, rho_estimates) with
      | none => none
      | some (net2, _) => some (net2, iterations - 1)

/-- Splits each list of a list of lists into head and tail; fails if any
is empty (the positional IndexError of the merge loops). -/
def headsTails {α : Type} : List (List α) → Option (List α × List (List α))
  | [] => some ([], [])
  | [] :: _ => none
  | (x :: xs) :: rest =>
    match headsTails rest with
    | none => none
    | some (hs, ts) => some (x :: hs, xs :: ts)

/-- The merge's weight loop: for each index `ij` of the master neuron's
weights, `(weights[ij] + Σ trained weights[ij]) / (len(trained)+1)`. -/
def mergeWeights (k : ℕ) : List ℚ → List (List ℚ) → Option (List ℚ)
  | [], _ => some []
  | w :: ws, others =>
    match headsTails others with
    | none => none
    | some (hs, ts) =>
      match mergeWeights k ws ts with
      | none => none
      | some rest => some ((w + hs.sum) / (k + 1) :: rest)

/-- Merge of one master neuron with the corresponding trained neurons:
averaged weights and averaged threshold. -/
def mergeNeuron (k : ℕ) (neuron : Neuron) (others : List Neuron) : Option Neuron :=
  match mergeWeights k neuron.weights (others.map (fun n => n.weights)) with
  | none => none
  | some ws =>
    let th := (neuron.threshold + (others.map (fun n => n.threshold)).sum) / (k + 1)
    some { neuron with weights := ws, threshold := th }

/-- Positional merge of the neurons of one layer. -/
def mergeNeurons (k : ℕ) : List Neuron → List (List Neuron) → Option (List Neuron)
  | [], _ => some []
  | n :: ns, others =>
    match headsTails others with
    | none => none
    | some (hs, ts) =>
      match mergeNeuron k n hs with
      | none => none
      | some n2 =>
        match mergeNeurons k ns ts with
        | none => none
        | some rest => some (n2 :: rest)

/-- Positional merge of the layers. -/
def mergeLayers (k : ℕ) : List Layer → List (List Layer) → Option (List Layer)
  | [], _ => some []
  | l :: ls, others =>
    match headsTails others with
    | none => none
    | some (hs, ts) =>
      match mergeNeurons k l.neurons (hs.map (fun x => x.neurons)) with
      | none => none
      | some ns2 =>
        match mergeLayers k ls ts with
        | none => none
        | some rest => some ({ l with neurons := ns2 } :: rest)

/-- The merge step of `parallel_train`: writes into the master network the
average of its own parameters and those of all trained copies. -/
def mergeNetworks (main : Network) (trained : List Network) : Option Network :=
  match mergeLayers trained.length main.layers (trained.map (fun n => n.layers)) with
  | none => none
  | some ls => some { layers := ls }

/-- `training_examples[process_num*chunk_amount : process_num*chunk_amount + chunk_amount]`. -/
def chunkSlice (training_examples : List (List ℚ × List ℚ)) (chunk_amount p : ℕ) :
    List (List ℚ × List ℚ) :=
  (training_examples.drop (p * chunk_amount)).take chunk_amount

/-- `_parallel_train_worker` for process number `p`: runs the trainer on
its chunk and yields the trained network.  The spawned processes run this
on a copy of the network; the orchestrator's own thread runs it (with
`p = num_processes - 1`) on the original network object. -/
def parallelWorkerResult (forward : Network → List ℚ → Network)
    (trainer : Backpropagation) (network : Network)
    (training_examples : List (List ℚ × List ℚ)) (iterations : ℕ)
    (unsupervised : Bool) (chunk_amount p : ℕ) : Option Network :=
  (trainer.train forward network (chunkSlice training_examples chunk_amount p)
    iterations unsupervised).map Prod.fst

/-- Results of the spawned worker processes, in spawn order (the queue
arrival order is irrelevant to the commutative merge). -/
def workerResults (forward : Network → List ℚ → Network) (trainer : Backpropagation)
    (network : Network) (training_examples : List (List ℚ × List ℚ))
    (iterations : ℕ) (unsupervised : Bool) (chunk_amount : ℕ) :
    List ℕ → Option (List Network)
  | [] => some []
  | p :: ps =>
    match parallelWorkerResult forward trainer network training_examples iterations
        unsupervised chunk_amount p with
    | none => none
    | some n =>
      match workerResults forward trainer network training_examples iterations
          unsupervised chunk_amount ps with
      | none => none
      | some rest => some (n :: rest)

/-- `parallel_train` with an explicit process count (the `None` default
reads the machine's cpu count, which is outside the model): clamp the
count to the number of examples, chunk the examples, run
`num_processes - 1` workers on copies, run the last chunk in-thread on the
original network, then merge by averaging.  Division by a zero process
count (empty example list) raises. -/
def parallel_train (forward : Network → List ℚ → Network) (trainer : Backpropagation)
    (network : Network) (training_examples : List (List ℚ × List ℚ))
    (iterations : ℕ) (unsupervised : Bool) (num_processes : ℕ) : Option Network :=
  let np := if num_processes > training_examples.length then training_examples.length
            else num_processes
  if np = 0 then none
  else
    let chunk_amount := training_examples.length / np
    match workerResults forward trainer network training_examples iterations
        unsupervised chunk_amount (List.range (np - 1)) with
    | none => none
    | some trained_networks =>
      match parallelWorkerResult forward trainer network training_examples iterations
          unsupervised chunk_amount (np - 1) with
      | none => none
      | some mainNet => mergeNetworks mainNet trained_networks

/-- Convenience accessor: the first weight of the first neuron of the
first layer. -/
def firstWeight (network : Network) : Option ℚ :=
  match network.layers.get? 0 with
  | none => none
  | some l =>
    match l.neurons.get? 0 with
    | none => none
    | some n => n.weights.get? 0

/-- A forward pass that leaves the network untouched: the simplest
instance of the external `compute_network_output` collaborator (the
backward pass only reads the caches it leaves in place). -/
def idForward : Network → List ℚ → Network := fun n _ => n

/-- The spec's claimed merge result for the degenerate one-process case:
the average of the original parameter and the trained parameter. -/
def specHalfAverage (original trained : ℚ) : ℚ := (original + trained) / 2

/-- The IEEE double range bound: `math.exp` raises `OverflowError` exactly
when the true result exceeds the largest finite double, i.e. at `2^1024`
up to one final rounding. -/
noncomputable def floatMax : ℝ := 2 ^ (1024 : ℕ)

/-- `LogisticActivationFunction.activate`: `1.0/(1 + math.exp(-1.0*x))`,
with the `OverflowError` handler returning `0.0000000000001` for negative
input and `0.9999999999999` otherwise.  The `try` can only fail inside
`math.exp`, modelled by the explicit `floatMax` comparison. -/
noncomputable def LogisticActivationFunction.activate (input_value : ℝ) : ℝ :=
  if floatMax < Real.exp (-1.0 * input_value) then
    (if input_value < 0 then 0.0000000000001 else 0.9999999999999)
  else 1.0 / (1 + Real.exp (-1.0 * input_value))

/-! ### Basic facts about the fallible list operations -/

theorem get?_isSome_iff {α : Type} (l : List α) (n : ℕ) :
    (l.get? n).isSome ↔ n < l.length := by
  rw [List.get?_eq_getElem?]
  cases h : l[n]? with
  | none =>
    have hl := List.getElem?_eq_none_iff.mp h
    simp only [Option.isSome_none, Bool.false_eq_true, false_iff, not_lt]
    exact hl
  | some x =>
    have hl := (List.getElem?_eq_some.mp h).1
    simp only [Option.isSome_some, true_iff]
    exact hl

theorem getD_of_get? (l : List ℚ) (n : ℕ) (x d : ℚ) (h : l.get? n = some x) :
    l.getD n d = x := by
  rw [List.getD_eq_getElem?_getD, ← List.get?_eq_getElem?, h]
  rfl

theorem updateWeights_isSome (lr d : ℚ) :
    ∀ (inputs ws : List ℚ),
      (updateWeights lr d inputs ws).isSome ↔ inputs.length ≤ ws.length
  | [], ws => by simp [updateWeights]
  | i :: rest, [] => by simp [updateWeights]
  | i :: rest, w :: ws => by
    have ih := updateWeights_isSome lr d rest ws
    simp only [updateWeights, List.length_cons, Nat.succ_le_succ_iff]
    cases h : updateWeights lr d rest ws with
    | none => rw [h] at ih; simpa using ih
    | some ws2 => rw [h] at ih; simpa using ih

theorem updateWeights_length (lr d : ℚ) :
    ∀ (inputs ws ws2 : List ℚ), updateWeights lr d inputs ws = some ws2 →
      ws2.length = ws.length
  | [], ws, ws2, h => by
    simp only [updateWeights, Option.some.injEq] at h
    rw [← h]
  | i :: rest, [], ws2, h => by simp [updateWeights] at h
  | i :: rest, w :: ws, ws2, h => by
    simp only [updateWeights] at h
    cases h2 : updateWeights lr d rest ws with
    | none => rw [h2] at h; cases h
    | some tail =>
      rw [h2] at h
      simp only [Option.some.injEq] at h
      rw [← h]
      simp [updateWeights_length lr d rest ws tail h2]

theorem updateWeights_get? (lr d : ℚ) :
    ∀ (inputs ws ws2 : List ℚ), updateWeights lr d inputs ws = some ws2 →
      ∀ (ij : ℕ) (w i : ℚ), ws.get? ij = some w → inputs.get? ij = some i →
      ws2.get? ij = some (w - lr * (d * i))
  | [], ws, ws2, h, ij, w, i, hw, hi => by simp at hi
  | i0 :: rest, [], ws2, h, ij, w, i, hw, hi => by simp [updateWeights] at h
  | i0 :: rest, w0 :: ws, ws2, h, ij, w, i, hw, hi => by
    simp only [updateWeights] at h
    cases h2 : updateWeights lr d rest ws with
    | none => rw [h2] at h; cases h
    | some tail =>
      rw [h2] at h
      simp only [Option.some.injEq] at h
      subst h
      match ij, hw, hi with
      | 0, hw, hi =>
        simp only [List.get?] at hw hi ⊢
        simp only [Option.some.injEq] at hw hi
        rw [hw, hi]
      | (ij' + 1), hw, hi =>
        simp only [List.get?] at hw hi ⊢
        exact updateWeights_get? lr d rest ws tail h2 ij' w i hw hi

theorem hiddenSumAux_isSome (j : ℕ) :
    ∀ (ps : List (ℚ × List ℚ)) (acc : ℚ),
      (hiddenSumAux j acc ps).isSome ↔ ∀ p ∈ ps, j < p.2.length
  | [], acc => by simp [hiddenSumAux]
  | p :: ps, acc => by
    simp only [hiddenSumAux, List.forall_mem_cons]
    cases h : p.2.get? j with
    | none =>
      have hlen : p.2.length ≤ j := List.get?_eq_none.mp h
      simp only [Option.isSome_none, Bool.false_eq_true, false_iff, not_and]
      intro hj
      omega
    | some w =>
      have hj : j < p.2.length := by
        rw [← get?_isSome_iff, h]
        rfl
      rw [hiddenSumAux_isSome j ps (acc + w * p.1)]
      simp [hj]

theorem hiddenSumAux_eq (j : ℕ) :
    ∀ (ps : List (ℚ × List ℚ)) (acc s : ℚ), hiddenSumAux j acc ps = some s →
      s = acc + (ps.map (fun p => p.2.getD j 0 * p.1)).sum
  | [], acc, s, h => by
    simp only [hiddenSumAux, Option.some.injEq] at h
    simp [← h]
  | p :: ps, acc, s, h => by
    simp only [hiddenSumAux] at h
    cases h2 : p.2.get? j with
    | none => rw [h2] at h; cases h
    | some w =>
      rw [h2] at h
      have ih := hiddenSumAux_eq j ps (acc + w * p.1) s h
      have hg : p.2.getD j 0 = w := getD_of_get? p.2 j w 0 h2
      rw [ih, List.map_cons, List.sum_cons, hg]
      ring

theorem hiddenSum_eq (j : ℕ) (nds : List ℚ) (nws : List (List ℚ)) (s : ℚ)
    (h : hiddenSum j nds nws = some s) :
    s = ((nds.zip nws).map (fun p => p.2.getD j 0 * p.1)).sum := by
  have := hiddenSumAux_eq j (nds.zip nws) 0.0 s h
  rw [this]
  norm_num

/-! ### Facts about the per-neuron delta computation -/

theorem computeDelta_out_eq (af : ActivationFunction) (target nds : List ℚ)
    (nws : List (List ℚ)) (j : ℕ) (n : Neuron) (d : ℚ)
    (h : computeDelta true af target nds nws j n = some d) :
    ∃ t, target.get? j = some t ∧
      d = (if af.name = "Logistic" then n.local_output - t
           else (n.local_output - t) * af.derivative n.local_output) := by
  simp only [computeDelta, if_pos] at h
  cases ht : target.get? j with
  | none => rw [ht] at h; cases h
  | some t =>
    simp only [ht] at h
    refine ⟨t, rfl, ?_⟩
    by_cases hn : af.name = "Logistic"
    · rw [if_pos hn] at h ⊢
      simp only [Option.some.injEq] at h
      exact h.symm
    · rw [if_neg hn] at h ⊢
      simp only [Option.some.injEq] at h
      exact h.symm

theorem computeDelta_hidden_eq (af : ActivationFunction) (target nds : List ℚ)
    (nws : List (List ℚ)) (j : ℕ) (n : Neuron) (d : ℚ)
    (h : computeDelta false af target nds nws j n = some d) :
    d = af.derivative n.local_output *
      ((nds.zip nws).map (fun p => p.2.getD j 0 * p.1)).sum := by
  simp only [computeDelta, Bool.false_eq_true, if_false] at h
  cases hs : hiddenSum j nds nws with
  | none => rw [hs] at h; cases h
  | some s =>
    simp only [hs, Option.some.injEq] at h
    rw [← h, hiddenSum_eq j nds nws s hs]

theorem computeDelta_out_isSome (af : ActivationFunction) (target nds : List ℚ)
    (nws : List (List ℚ)) (j : ℕ) (n : Neuron) :
    (computeDelta true af target nds nws j n).isSome ↔ j < target.length := by
  simp only [computeDelta, if_pos]
  cases ht : target.get? j with
  | none =>
    have := List.get?_eq_none.mp ht
    simp only [Option.isSome_none, Bool.false_eq_true, false_iff, not_lt]
    exact this
  | some t =>
    have hj : j < target.length := by
      rw [← get?_isSome_iff, ht]; rfl
    simp only [hj, iff_true]
    by_cases hn : af.name = "Logistic" <;> simp [hn]

theorem computeDelta_hidden_isSome (af : ActivationFunction) (target nds : List ℚ)
    (nws : List (List ℚ)) (j : ℕ) (n : Neuron) :
    (computeDelta false af target nds nws j n).isSome ↔
      ∀ p ∈ nds.zip nws, j < p.2.length := by
  simp only [computeDelta, Bool.false_eq_true, if_false]
  rw [← hiddenSumAux_isSome j (nds.zip nws) 0.0]
  cases hs : hiddenSum j nds nws with
  | none => simp [hiddenSum] at hs; simp [hs]
  | some s => simp [hiddenSum] at hs; simp [hs]

/-! ### Facts about per-neuron processing -/

theorem processNeuron_some (lr : ℚ) (unsupervised isOutputLayer : Bool)
    (af : ActivationFunction) (target nds : List ℚ) (nws : List (List ℚ)) (j : ℕ)
    (n : Neuron) (rhoEst : List ℚ) (n2 : Neuron) (d : ℚ) (r2 : List ℚ)
    (h : processNeuron lr unsupervised isOutputLayer af target nds nws j n rhoEst =
      some (n2, d, r2)) :
    computeDelta isOutputLayer af target nds nws j n = some d ∧
    updateWeights lr d n.inputs n.weights = some n2.weights ∧
    n2.local_output = n.local_output ∧ n2.inputs = n.inputs ∧
    r2.length = rhoEst.length := by
  simp only [processNeuron] at h
  cases hd : computeDelta isOutputLayer af target nds nws j n with
  | none => rw [hd] at h; cases h
  | some d0 =>
    simp only [hd] at h
    cases hw : updateWeights lr d0 n.inputs n.weights with
    | none => rw [hw] at h; cases h
    | some ws =>
      simp only [hw] at h
      by_cases hg : unsupervised && !isOutputLayer
      · rw [if_pos hg] at h
        cases hr : rhoEst.get? j with
        | none => rw [hr] at h; cases h
        | some r =>
          simp only [hr, Option.some.injEq, Prod.mk.injEq] at h
          obtain ⟨hn2, hd2, hr2⟩ := h
          subst hd2
          refine ⟨rfl, ?_, ?_, ?_, ?_⟩
          · rw [← hn2]; exact hw
          · rw [← hn2]
          · rw [← hn2]
          · rw [← hr2]; simp
      · rw [if_neg hg] at h
        simp only [Option.some.injEq, Prod.mk.injEq] at h
        obtain ⟨hn2, hd2, hr2⟩ := h
        subst hd2
        refine ⟨rfl, ?_, ?_, ?_, ?_⟩
        · rw [← hn2]; exact hw
        · rw [← hn2]
        · rw [← hn2]
        · rw [← hr2]

theorem processNeuron_some_std (lr : ℚ) (unsupervised isOutputLayer : Bool)
    (af : ActivationFunction) (target nds : List ℚ) (nws : List (List ℚ)) (j : ℕ)
    (n : Neuron) (rhoEst : List ℚ) (n2 : Neuron) (d : ℚ) (r2 : List ℚ)
    (h : processNeuron lr unsupervised isOutputLayer af target nds nws j n rhoEst =
      some (n2, d, r2))
    (hg : (unsupervised && !isOutputLayer) = false) :
    r2 = rhoEst ∧ n2.threshold = n.threshold - lr * (d * 1) := by
  simp only [processNeuron] at h
  cases hd : computeDelta isOutputLayer af target nds nws j n with
  | none => rw [hd] at h; cases h
  | some d0 =>
    simp only [hd] at h
    cases hw : updateWeights lr d0 n.inputs n.weights with
    | none => rw [hw] at h; cases h
    | some ws =>
      simp only [hw, hg, Bool.false_eq_true, if_false, Option.some.injEq,
        Prod.mk.injEq] at h
      obtain ⟨hn2, hd2, hr2⟩ := h
      subst hd2
      exact ⟨hr2.symm, by rw [← hn2]⟩

theorem processNeuron_some_unsup (lr : ℚ) (unsupervised isOutputLayer : Bool)
    (af : ActivationFunction) (target nds : List ℚ) (nws : List (List ℚ)) (j : ℕ)
    (n : Neuron) (rhoEst : List ℚ) (n2 : Neuron) (d : ℚ) (r2 : List ℚ)
    (h : processNeuron lr unsupervised isOutputLayer af target nds nws j n rhoEst =
      some (n2, d, r2))
    (hg : (unsupervised && !isOutputLayer) = true) :
    ∃ r, rhoEst.get? j = some r ∧
      r2 = rhoEst.set j (0.999 * r + 0.001 * n.local_output) ∧
      n2.threshold = (n.threshold - lr * (d * 1)) -
        lr * beta * ((0.999 * r + 0.001 * n.local_output) - rho) := by
  simp only [processNeuron] at h
  cases hd : computeDelta isOutputLayer af target nds nws j n with
  | none => rw [hd] at h; cases h
  | some d0 =>
    simp only [hd] at h
    cases hw : updateWeights lr d0 n.inputs n.weights with
    | none => rw [hw] at h; cases h
    | some ws =>
      simp only [hw, hg, if_true] at h
      cases hr : rhoEst.get? j with
      | none => rw [hr] at h; cases h
      | some r =>
        simp only [hr, Option.some.injEq, Prod.mk.injEq] at h
        obtain ⟨hn2, hd2, hr2⟩ := h
        subst hd2
        exact ⟨r, rfl, hr2.symm, by rw [← hn2]⟩

theorem processNeuron_isSome (lr : ℚ) (unsupervised isOutputLayer : Bool)
    (af : ActivationFunction) (target nds : List ℚ) (nws : List (List ℚ)) (j : ℕ)
    (n : Neuron) (rhoEst : List ℚ) :
    (processNeuron lr unsupervised isOutputLayer af target nds nws j n rhoEst).isSome
      ↔ (computeDelta isOutputLayer af target nds nws j n).isSome ∧
        n.inputs.length ≤ n.weights.length ∧
        ((unsupervised && !isOutputLayer) = true → j < rhoEst.length) := by
  simp only [processNeuron]
  cases hd : computeDelta isOutputLayer af target nds nws j n with
  | none => simp
  | some d0 =>
    simp only [Option.isSome_some, true_and]
    cases hw : updateWeights lr d0 n.inputs n.weights with
    | none =>
      have := updateWeights_isSome lr d0 n.inputs n.weights
      rw [hw] at this
      simp only [Option.isSome_none, Bool.false_eq_true, false_iff, false_and] at this ⊢
      intro hc
      exact this hc.1
    | some ws =>
      have hlen := updateWeights_isSome lr d0 n.inputs n.weights
      rw [hw] at hlen
      simp only [Option.isSome_some, true_iff] at hlen
      simp only [hlen, true_and]
      by_cases hg : unsupervised && !isOutputLayer
      · rw [if_pos hg]
        simp only [hg, true_implies]
        cases hr : rhoEst.get? j with
        | none =>
          have := List.get?_eq_none.mp hr
          simp only [Option.isSome_none, Bool.false_eq_true, false_iff, not_lt]
          exact this
        | some r =>
          have : j < rhoEst.length := by rw [← get?_isSome_iff, hr]; rfl
          simp [this]
      · rw [if_neg hg]
        simp only [Bool.not_eq_true] at hg
        simp [hg]

/-! ### Facts about the per-layer neuron loop -/

theorem processNeurons_wss (lr : ℚ) (unsupervised isOutputLayer : Bool)
    (af : ActivationFunction) (target nds : List ℚ) (nws : List (List ℚ)) :
    ∀ (j : ℕ) (ns : List Neuron) (rhoEst : List ℚ) (ns2 : List Neuron)
      (ds : List ℚ) (wss : List (List ℚ)) (r3 : List ℚ),
      processNeurons lr unsupervised isOutputLayer af target nds nws j ns rhoEst =
        some (ns2, ds, wss, r3) →
      wss = ns2.map (fun n => n.weights)
  | j, [], rhoEst, ns2, ds, wss, r3, h => by
    simp only [processNeurons, Option.some.injEq, Prod.mk.injEq] at h
    obtain ⟨h1, h2, h3, h4⟩ := h
    simp [← h1, ← h3]
  | j, n :: ns, rhoEst, ns2, ds, wss, r3, h => by
    simp only [processNeurons] at h
    cases h1 : processNeuron lr unsupervised isOutputLayer af target nds nws j n
        rhoEst with
    | none => rw [h1] at h; cases h
    | some x =>
      obtain ⟨n2, d, rho2⟩ := x
      simp only [h1] at h
      cases h2 : processNeurons lr unsupervised isOutputLayer af target nds nws
          (j + 1) ns rho2 with
      | none => rw [h2] at h; cases h
      | some y =>
        obtain ⟨ns2t, dst, wsst, rho3t⟩ := y
        simp only [h2, Option.some.injEq, Prod.mk.injEq] at h
        obtain ⟨ha, hb, hc, hd2⟩ := h
        have ih := processNeurons_wss lr unsupervised isOutputLayer af target nds nws
          (j + 1) ns rho2 ns2t dst wsst rho3t h2
        rw [← ha, ← hc, ih]
        rfl

theorem processNeurons_lengths (lr : ℚ) (unsupervised isOutputLayer : Bool)
    (af : ActivationFunction) (target nds : List ℚ) (nws : List (List ℚ)) :
    ∀ (j : ℕ) (ns : List Neuron) (rhoEst : List ℚ) (ns2 : List Neuron)
      (ds : List ℚ) (wss : List (List ℚ)) (r3 : List ℚ),
      processNeurons lr unsupervised isOutputLayer af target nds nws j ns rhoEst =
        some (ns2, ds, wss, r3) →
      ns2.length = ns.length ∧ ds.length = ns.length ∧ r3.length = rhoEst.length ∧
        wss.map List.length = ns.map (fun n => n.weights.length)
  | j, [], rhoEst, ns2, ds, wss, r3, h => by
    simp only [processNeurons, Option.some.injEq, Prod.mk.injEq] at h
    obtain ⟨h1, h2, h3, h4⟩ := h
    simp [← h1, ← h2, ← h3, ← h4]
  | j, n :: ns, rhoEst, ns2, ds, wss, r3, h => by
    simp only [processNeurons] at h
    cases h1 : processNeuron lr unsupervised isOutputLayer af target nds nws j n
        rhoEst with
    | none => rw [h1] at h; cases h
    | some x =>
      obtain ⟨n2, d, rho2⟩ := x
      simp only [h1] at h
      cases h2 : processNeurons lr unsupervised isOutputLayer af target nds nws
          (j + 1) ns rho2 with
      | none => rw [h2] at h; cases h
      | some y =>
        obtain ⟨ns2t, dst, wsst, rho3t⟩ := y
        simp only [h2, Option.some.injEq, Prod.mk.injEq] at h
        obtain ⟨ha, hb, hc, hd2⟩ := h
        have ih := processNeurons_lengths lr unsupervised isOutputLayer af target nds
          nws (j + 1) ns rho2 ns2t dst wsst rho3t h2
        have hpn := processNeuron_some lr unsupervised isOutputLayer af target nds nws
          j n rhoEst n2 d rho2 h1
        obtain ⟨_, hw, _, hinp, hrlen⟩ := hpn
        have hwlen : n2.weights.length = n.weights.length := by
          have := updateWeights_length lr d n.inputs n.weights n2.weights hw
          exact this
        refine ⟨?_, ?_, ?_, ?_⟩
        · rw [← ha]; simp [ih.1]
        · rw [← hb]; simp [ih.2.1]
        · rw [← hd2, ih.2.2.1, hrlen]
        · rw [← hc]
          simp only [List.map_cons]
          rw [ih.2.2.2, hwlen]

theorem processNeurons_deltas (lr : ℚ) (unsupervised isOutputLayer : Bool)
    (af : ActivationFunction) (target nds : List ℚ) (nws : List (List ℚ)) :
    ∀ (j : ℕ) (ns : List Neuron) (rhoEst : List ℚ) (ns2 : List Neuron)
      (ds : List ℚ) (wss : List (List ℚ)) (r3 : List ℚ),
      processNeurons lr unsupervised isOutputLayer af target nds nws j ns rhoEst =
        some (ns2, ds, wss, r3) →
      ∀ (i : ℕ) (n : Neuron), ns.get? i = some n →
        ∃ d, ds.get? i = some d ∧
          computeDelta isOutputLayer af target nds nws (j + i) n = some d
  | j, [], rhoEst, ns2, ds, wss, r3, h, i, n, hn => by simp at hn
  | j, n0 :: ns, rhoEst, ns2, ds, wss, r3, h, i, n, hn => by
    simp only [processNeurons] at h
    cases h1 : processNeuron lr unsupervised isOutputLayer af target nds nws j n0
        rhoEst with
    | none => rw [h1] at h; cases h
    | some x =>
      obtain ⟨n2, d, rho2⟩ := x
      simp only [h1] at h
      cases h2 : processNeurons lr unsupervised isOutputLayer af target nds nws
          (j + 1) ns rho2 with
      | none => rw [h2] at h; cases h
      | some y =>
        obtain ⟨ns2t, dst, wsst, rho3t⟩ := y
        simp only [h2, Option.some.injEq, Prod.mk.injEq] at h
        obtain ⟨ha, hb, hc, hd2⟩ := h
        match i, hn with
        | 0, hn =>
          simp only [List.get?, Option.some.injEq] at hn
          refine ⟨d, ?_, ?_⟩
          · rw [← hb]; rfl
          · rw [← hn]
            have := (processNeuron_some lr unsupervised isOutputLayer af target nds
              nws j n0 rhoEst n2 d rho2 h1).1
            simpa using this
        | (i' + 1), hn =>
          simp only [List.get?] at hn
          obtain ⟨d', hd', hc'⟩ := processNeurons_deltas lr unsupervised isOutputLayer
            af target nds nws (j + 1) ns rho2 ns2t dst wsst rho3t h2 i' n hn
          refine ⟨d', ?_, ?_⟩
          · rw [← hb]; simpa using hd'
          · have harith : j + 1 + i' = j + (i' + 1) := by omega
            rw [← harith]
            exact hc'

theorem processNeurons_isSome (lr : ℚ) (isOutputLayer : Bool)
    (af : ActivationFunction) (target nds : List ℚ) (nws : List (List ℚ)) :
    ∀ (j : ℕ) (ns : List Neuron) (rhoEst : List ℚ),
      (isOutputLayer = true → j + ns.length ≤ target.length) →
      (isOutputLayer = false → ∀ p ∈ nds.zip nws, j + ns.length ≤ p.2.length) →
      (∀ n ∈ ns, n.inputs.length ≤ n.weights.length) →
      ((processNeurons lr true isOutputLayer af target nds nws j ns rhoEst).isSome ↔
        (isOutputLayer = false → ∀ i < ns.length, j + i < rhoEst.length))
  | j, [], rhoEst, ht, hz, hs => by simp [processNeurons]
  | j, n :: ns, rhoEst, ht, hz, hs => by
    have hdelta : (computeDelta isOutputLayer af target nds nws j n).isSome := by
      cases isOutputLayer with
      | true =>
        rw [computeDelta_out_isSome]
        have := ht rfl
        simp only [List.length_cons] at this
        omega
      | false =>
        rw [computeDelta_hidden_isSome]
        intro p hp
        have := hz rfl p hp
        simp only [List.length_cons] at this
        omega
    have hwlen : n.inputs.length ≤ n.weights.length := hs n (by simp)
    have hpn := processNeuron_isSome lr true isOutputLayer af target nds nws j n
      rhoEst
    simp only [processNeurons]
    cases h1 : processNeuron lr true isOutputLayer af target nds nws j n rhoEst with
    | none =>
      rw [h1] at hpn
      simp only [Option.isSome_none, Bool.false_eq_true, false_iff, not_and] at hpn
      have hguard := hpn hdelta
      cases isOutputLayer with
      | true => simp at hguard; omega
      | false =>
        simp only [Bool.not_true, Bool.and_true, Bool.not_false] at hguard
        have hnj : ¬ j < rhoEst.length := by
          intro hc
          exact (hguard hwlen) (fun _ => hc)
        simp only [Option.isSome_none, Bool.false_eq_true, false_iff, not_forall]
        exact ⟨trivial, 0, by simp, by simpa using hnj⟩
    | some x =>
      obtain ⟨n2, d, rho2⟩ := x
      have hrlen : rho2.length = rhoEst.length :=
        (processNeuron_some lr true isOutputLayer af target nds nws j n rhoEst n2 d
          rho2 h1).2.2.2.2
      have hjlt : (true && !isOutputLayer) = true → j < rhoEst.length := by
        rw [h1] at hpn
        simp only [Option.isSome_some, true_iff] at hpn
        exact hpn.2.2
      simp only [h1]
      have ih := processNeurons_isSome lr isOutputLayer af target nds nws (j + 1) ns
        rho2
        (fun hOut => by have := ht hOut; simp only [List.length_cons] at this; omega)
        (fun hOut p hp => by
          have := hz hOut p hp; simp only [List.length_cons] at this; omega)
        (fun m hm => hs m (by simp [hm]))
      have hmatch :
          ((match processNeurons lr true isOutputLayer af target nds nws (j + 1) ns
              rho2 with
            | none => none
            | some (ns2, ds, wss, rho3) =>
              some (n2 :: ns2, d :: ds, n2.weights :: wss, rho3)) :
            Option (List Neuron × List ℚ × List (List ℚ) × List ℚ)).isSome =
          (processNeurons lr true isOutputLayer af target nds nws (j + 1) ns
            rho2).isSome := by
        cases processNeurons lr true isOutputLayer af target nds nws (j + 1) ns
            rho2 with
        | none => rfl
        | some y =>
          obtain ⟨a, b, c, e⟩ := y
          rfl
      rw [hmatch, ih, hrlen]
      cases isOutputLayer with
      | true => simp
      | false =>
        simp only [true_implies, Bool.not_false, Bool.and_self] at hjlt ⊢
        constructor
        · intro hall i hi
          match i, hi with
          | 0, _ => simpa using hjlt
          | (i' + 1), hi =>
            have := hall i' (by simpa using hi)
            omega
        · intro hall i hi
          have := hall (i + 1) (by simpa using hi)
          omega

/-! ### Facts about whole-layer processing -/

theorem processLayer_some_elim (lr : ℚ) (unsupervised isOutputLayer : Bool)
    (layer : Layer) (target nds : List ℚ) (nws : List (List ℚ)) (rhoEst : List ℚ)
    (A2 : Layer) (ds : List ℚ) (wss : List (List ℚ)) (r2 : List ℚ)
    (h : processLayer lr unsupervised isOutputLayer layer target nds nws rhoEst =
      some (A2, ds, wss, r2)) :
    ∃ ns2, processNeurons lr unsupervised isOutputLayer layer.activation_function
        target nds nws 0 layer.neurons rhoEst = some (ns2, ds, wss, r2) ∧
      A2 = { layer with neurons := ns2 } := by
  simp only [processLayer] at h
  cases h0 : processNeurons lr unsupervised isOutputLayer layer.activation_function
      target nds nws 0 layer.neurons rhoEst with
  | none => rw [h0] at h; cases h
  | some y =>
    obtain ⟨ns2, ds0, wss0, r0⟩ := y
    simp only [h0, Option.some.injEq, Prod.mk.injEq] at h
    obtain ⟨ha, hb, hc, hd2⟩ := h
    exact ⟨ns2, by rw [hb, hc, hd2], ha.symm⟩

theorem processLayer_lengths (lr : ℚ) (unsupervised isOutputLayer : Bool)
    (layer : Layer) (target nds : List ℚ) (nws : List (List ℚ)) (rhoEst : List ℚ)
    (A2 : Layer) (ds : List ℚ) (wss : List (List ℚ)) (r2 : List ℚ)
    (h : processLayer lr unsupervised isOutputLayer layer target nds nws rhoEst =
      some (A2, ds, wss, r2)) :
    ds.length = layer.neurons.length ∧
      wss.map List.length = layer.neurons.map (fun n => n.weights.length) ∧
      r2.length = rhoEst.length := by
  obtain ⟨ns2, h0, _⟩ := processLayer_some_elim lr unsupervised isOutputLayer layer
    target nds nws rhoEst A2 ds wss r2 h
  have := processNeurons_lengths lr unsupervised isOutputLayer
    layer.activation_function target nds nws 0 layer.neurons rhoEst ns2 ds wss r2 h0
  exact ⟨this.2.1, this.2.2.2, this.2.2.1⟩

theorem processLayer_isSome (lr : ℚ) (isOutputLayer : Bool) (layer : Layer)
    (target nds : List ℚ) (nws : List (List ℚ)) (rhoEst : List ℚ)
    (ht : isOutputLayer = true → layer.neurons.length ≤ target.length)
    (hz : isOutputLayer = false →
      ∀ p ∈ nds.zip nws, layer.neurons.length ≤ p.2.length)
    (hs : ∀ n ∈ layer.neurons, n.inputs.length ≤ n.weights.length) :
    ((processLayer lr true isOutputLayer layer target nds nws rhoEst).isSome ↔
      (isOutputLayer = false → layer.neurons.length ≤ rhoEst.length)) := by
  have hns := processNeurons_isSome lr isOutputLayer layer.activation_function target
    nds nws 0 layer.neurons rhoEst (by simpa using ht) (by simpa using hz) hs
  have hmatch : (processLayer lr true isOutputLayer layer target nds nws
        rhoEst).isSome =
      (processNeurons lr true isOutputLayer layer.activation_function target nds nws
        0 layer.neurons rhoEst).isSome := by
    simp only [processLayer]
    cases processNeurons lr true isOutputLayer layer.activation_function target nds
        nws 0 layer.neurons rhoEst with
    | none => rfl
    | some y =>
      obtain ⟨a, b, c, e⟩ := y
      rfl
  rw [hmatch, hns]
  constructor
  · intro h1 h2
    have hall := h1 h2
    cases hlen : layer.neurons.length with
    | zero => omega
    | succ k =>
      have := hall k (by omega)
      omega
  · intro h1 h2 i hi
    have := h1 h2
    omega

theorem processLayersRev_isSome (lr : ℚ) (target : List ℚ) :
    ∀ (ls : List Layer) (isOutputLayer : Bool) (nds : List ℚ)
      (nws : List (List ℚ)) (rhoEst : List ℚ),
      (∀ L ∈ ls, ∀ n ∈ L.neurons, n.inputs.length ≤ n.weights.length) →
      List.Chain' (fun A B => ∀ n ∈ A.neurons, B.neurons.length ≤ n.weights.length)
        ls →
      (isOutputLayer = true → ∀ L ∈ ls.take 1, L.neurons.length ≤ target.length) →
      (isOutputLayer = false → ∀ L ∈ ls.take 1, ∀ p ∈ nds.zip nws,
        L.neurons.length ≤ p.2.length) →
      ((processLayersRev lr true target ls isOutputLayer nds nws rhoEst).isSome ↔
        ∀ L ∈ (if isOutputLayer = true then ls.drop 1 else ls),
          L.neurons.length ≤ rhoEst.length)
  | [], isOut, nds, nws, rhoEst, hshape, hchain, ht, hz => by
    cases isOut <;> simp [processLayersRev]
  | A :: rest, isOut, nds, nws, rhoEst, hshape, hchain, ht, hz => by
    have htA : isOut = true → A.neurons.length ≤ target.length := fun h =>
      ht h A (by simp)
    have hzA : isOut = false → ∀ p ∈ nds.zip nws, A.neurons.length ≤ p.2.length :=
      fun h p hp => hz h A (by simp) p hp
    have hsA := hshape A (by simp)
    have hpl := processLayer_isSome lr isOut A target nds nws rhoEst htA hzA hsA
    simp only [processLayersRev]
    cases h1 : processLayer lr true isOut A target nds nws rhoEst with
    | none =>
      rw [h1] at hpl
      simp only [Option.isSome_none, Bool.false_eq_true, false_iff] at hpl
      have hfail : isOut = false ∧ ¬ A.neurons.length ≤ rhoEst.length := by
        cases isOut with
        | true => exact absurd (fun h => by cases h) hpl
        | false =>
          refine ⟨rfl, fun hc => ?_⟩
          exact hpl (fun _ => hc)
      obtain ⟨ho, hgt⟩ := hfail
      subst ho
      simp only [Bool.false_eq_true, if_false, Option.isSome_none, false_iff]
      intro hall
      exact hgt (hall A (by simp))
    | some x =>
      obtain ⟨A2, ds, wss, rho2⟩ := x
      obtain ⟨hdlen, hwlen, hrlen⟩ := processLayer_lengths lr true isOut A target nds
        nws rhoEst A2 ds wss rho2 h1
      have hA : isOut = false → A.neurons.length ≤ rhoEst.length := by
        rw [h1] at hpl
        simp only [Option.isSome_some, true_iff] at hpl
        exact hpl
      have hshape' : ∀ L ∈ rest, ∀ n ∈ L.neurons,
          n.inputs.length ≤ n.weights.length := fun L hL => hshape L (by simp [hL])
      have hchain' := hchain.tail
      have hz' : (false : Bool) = false → ∀ L ∈ rest.take 1, ∀ p ∈ ds.zip wss,
          L.neurons.length ≤ p.2.length := by
        intro _ L hL p hp
        cases rest with
        | nil => simp at hL
        | cons B rest' =>
          simp only [List.take, List.mem_singleton] at hL
          have hBL : L = B := by simpa using hL
          subst hBL
          have hmem : p.2 ∈ wss := (List.of_mem_zip hp).2
          have : p.2.length ∈ wss.map List.length := List.mem_map_of_mem _ hmem
          rw [hwlen] at this
          obtain ⟨n, hn, hlen⟩ := List.mem_map.mp this
          have hAB := (List.chain'_cons.mp hchain).1
          rw [← hlen]
          exact hAB n hn
      have ih := processLayersRev_isSome lr target rest false ds wss rho2 hshape'
        hchain' (fun h => by cases h) hz'
      have hmatch :
          ((match processLayersRev lr true target rest false ds wss rho2 with
            | none => none
            | some (rest2, rho3) => some (A2 :: rest2, rho3)) :
            Option (List Layer × List ℚ)).isSome =
          (processLayersRev lr true target rest false ds wss rho2).isSome := by
        cases processLayersRev lr true target rest false ds wss rho2 with
        | none => rfl
        | some y =>
          obtain ⟨a, b⟩ := y
          rfl
      rw [hmatch, ih, hrlen]
      simp only [Bool.false_eq_true, if_false]
      cases isOut with
      | true => simp
      | false =>
        simp only [Bool.false_eq_true, if_false, List.forall_mem_cons]
        have hAm := hA rfl
        constructor
        · intro hrest
          exact ⟨hAm, hrest⟩
        · intro hboth
          exact hboth.2

/-! ### Claim theorems -/

/-- C1: in `Backpropagation.train`, for every neuron at index `j` of the
output layer (the layer processed with `isOutputLayer = true`) after a
forward pass, the delta recorded for it equals `local_output - target[j]`
when the layer's activation function is Logistic, and
`(local_output - target[j]) * derivative(local_output)` for any other
activation function. -/
theorem output_delta_formula (lr : ℚ) (unsupervised : Bool) (layer : Layer)
    (target nds : List ℚ) (nws : List (List ℚ)) (rhoEst : List ℚ) (L2 : Layer)
    (ds : List ℚ) (wss : List (List ℚ)) (r2 : List ℚ)
    (h : processLayer lr unsupervised true layer target nds nws rhoEst =
      some (L2, ds, wss, r2))
    (j : ℕ) (n : Neuron) (t : ℚ) (hn : layer.neurons.get? j = some n)
    (htar : target.get? j = some t) :
    ds.get? j = some (if layer.activation_function.name = "Logistic"
      then n.local_output - t
      else (n.local_output - t) *
        layer.activation_function.derivative n.local_output) := by
  obtain ⟨ns2, h0, _⟩ := processLayer_some_elim lr unsupervised true layer target nds
    nws rhoEst L2 ds wss r2 h
  obtain ⟨d, hd, hcd⟩ := processNeurons_deltas lr unsupervised true
    layer.activation_function target nds nws 0 layer.neurons rhoEst ns2 ds wss r2 h0
    j n hn
  rw [hd]
  have hcd' : computeDelta true layer.activation_function target nds nws j n =
      some d := by simpa using hcd
  obtain ⟨t', ht', hdef⟩ := computeDelta_out_eq layer.activation_function target nds
    nws j n d hcd'
  rw [htar] at ht'
  simp only [Option.some.injEq] at ht'
  rw [hdef, ht']

/-- C1 witness: a concrete one-neuron Logistic output layer. -/
theorem output_delta_formula_witness :
    ([(0 : ℚ)].get? 0 = some (if ActivationFunction.Logistic.name = "Logistic"
      then (0 : ℚ) - 0
      else ((0 : ℚ) - 0) * ActivationFunction.Logistic.derivative 0)) := by
  have h : processLayer 1 false true
      (Layer.mk [Neuron.mk [0] 0 0 [0]] ActivationFunction.Logistic) [0] [] [] [] =
      some (Layer.mk [Neuron.mk [0] (0 - 1 * (0 * 1)) 0 [0]]
        ActivationFunction.Logistic, [0], [[0]], []) := by
    simp only [processLayer, processNeurons, processNeuron, computeDelta,
      updateWeights, hiddenSum, hiddenSumAux, List.get?, ActivationFunction.name]
    norm_num
  have := output_delta_formula 1 false
    (Layer.mk [Neuron.mk [0] 0 0 [0]] ActivationFunction.Logistic)
    [0] [] [] [] _ _ _ _ h 0 (Neuron.mk [0] 0 0 [0]) 0 rfl rfl
  exact this

/-- C2: in `Backpropagation.train`, for every neuron at index `j` of a
non-output layer (processed with `isOutputLayer = false`), the delta
computed for it equals `derivative(local_output)` times the sum, over
every neuron `k` of the next more-forward layer (the maintained
`next_layer_deltas`/`next_layer_weights` pair lists), of that neuron's
weight on connection `j` times that neuron's delta. -/
theorem hidden_delta_recurrence (lr : ℚ) (unsupervised : Bool) (layer : Layer)
    (target nds : List ℚ) (nws : List (List ℚ)) (rhoEst : List ℚ) (L2 : Layer)
    (ds : List ℚ) (wss : List (List ℚ)) (r2 : List ℚ)
    (h : processLayer lr unsupervised false layer target nds nws rhoEst =
      some (L2, ds, wss, r2))
    (j : ℕ) (n : Neuron) (hn : layer.neurons.get? j = some n) :
    ds.get? j = some (layer.activation_function.derivative n.local_output *
      ((nds.zip nws).map (fun p => p.2.getD j 0 * p.1)).sum) := by
  obtain ⟨ns2, h0, _⟩ := processLayer_some_elim lr unsupervised false layer target
    nds nws rhoEst L2 ds wss r2 h
  obtain ⟨d, hd, hcd⟩ := processNeurons_deltas lr unsupervised false
    layer.activation_function target nds nws 0 layer.neurons rhoEst ns2 ds wss r2 h0
    j n hn
  rw [hd]
  have hcd' : computeDelta false layer.activation_function target nds nws j n =
      some d := by simpa using hcd
  rw [computeDelta_hidden_eq layer.activation_function target nds nws j n d hcd']

/-- C2 witness: a concrete one-neuron Tanh hidden layer fed by a
one-neuron forward layer. -/
theorem hidden_delta_recurrence_witness :
    ([(2 : ℚ)]).get? 0 = some (ActivationFunction.Tanh.derivative 0 *
      (([((1 : ℚ), [(2 : ℚ)])]).map (fun p => p.2.getD 0 0 * p.1)).sum) := by
  have h : processLayer 1 false false
      (Layer.mk [Neuron.mk [0] 0 0 [0]] ActivationFunction.Tanh) [] [1] [[2]] [] =
      some (Layer.mk [Neuron.mk [0] (-2) 0 [0]] ActivationFunction.Tanh,
        [2], [[0]], []) := by
    norm_num [processLayer, processNeurons, processNeuron, computeDelta,
      updateWeights, hiddenSum, hiddenSumAux, List.zip, List.zipWith, List.get?,
      ActivationFunction.derivative, ActivationFunction.name]
  exact hidden_delta_recurrence 1 false
    (Layer.mk [Neuron.mk [0] 0 0 [0]] ActivationFunction.Tanh) [] [1] [[2]] []
    _ _ _ _ h 0 (Neuron.mk [0] 0 0 [0]) rfl

/-- C9: each neuron's weight vector is recorded into the layer accumulator
by reference before the update, so the accumulated `this_layer_weights`
are the post-gradient-step weight vectors of the processed layer, and the
hidden-layer recurrence of the next more-backward layer is evaluated
against exactly those post-update vectors. -/
theorem recorded_weights_post_update (lr : ℚ) (unsupervised isOutputLayer : Bool)
    (A B : Layer) (rest : List Layer) (target nds : List ℚ) (nws : List (List ℚ))
    (rhoEst : List ℚ) (ls2 : List Layer) (rfin : List ℚ)
    (h : processLayersRev lr unsupervised target (A :: B :: rest) isOutputLayer nds
      nws rhoEst = some (ls2, rfin)) :
    ∃ A2 ds wss rhoEst2 tail2,
      processLayer lr unsupervised isOutputLayer A target nds nws rhoEst =
        some (A2, ds, wss, rhoEst2) ∧
      wss = A2.neurons.map (fun n => n.weights) ∧
      processLayersRev lr unsupervised target (B :: rest) false ds wss rhoEst2 =
        some (tail2, rfin) ∧
      ls2 = A2 :: tail2 := by
  have hunfold : processLayersRev lr unsupervised target (A :: B :: rest)
      isOutputLayer nds nws rhoEst =
      match processLayer lr unsupervised isOutputLayer A target nds nws rhoEst with
      | none => none
      | some (layer2, ds, wss, rho2) =>
        match processLayersRev lr unsupervised target (B :: rest) false ds wss
            rho2 with
        | none => none
        | some (rest2, rho3) => some (layer2 :: rest2, rho3) := rfl
  rw [hunfold] at h
  cases h1 : processLayer lr unsupervised isOutputLayer A target nds nws rhoEst with
  | none => rw [h1] at h; cases h
  | some x =>
    obtain ⟨A2, ds, wss, rho2⟩ := x
    simp only [h1] at h
    cases h2 : processLayersRev lr unsupervised target (B :: rest) false ds wss
        rho2 with
    | none => rw [h2] at h; cases h
    | some y =>
      obtain ⟨tail2, rho3⟩ := y
      simp only [h2, Option.some.injEq, Prod.mk.injEq] at h
      obtain ⟨ha, hb⟩ := h
      obtain ⟨ns2, h0, hA2⟩ := processLayer_some_elim lr unsupervised isOutputLayer A
        target nds nws rhoEst A2 ds wss rho2 h1
      have hwss := processNeurons_wss lr unsupervised isOutputLayer
        A.activation_function target nds nws 0 A.neurons rhoEst ns2 ds wss rho2 h0
      refine ⟨A2, ds, wss, rho2, tail2, rfl, ?_, ?_, ha.symm⟩
      · rw [hwss, hA2]
      · rw [h2, hb]

/-- C9 witness: a two-layer network where the recorded vectors visibly are
the post-update ones. -/
theorem recorded_weights_post_update_witness :
    ∃ A2 ds wss rhoEst2 tail2,
      processLayer 1 false true
          (Layer.mk [Neuron.mk [1] 0 1 [1]] ActivationFunction.Linear) [0] [] [] [] =
        some (A2, ds, wss, rhoEst2) ∧
      wss = A2.neurons.map (fun n => n.weights) ∧
      processLayersRev 1 false [0]
          [Layer.mk [Neuron.mk [1] 0 1 [1]] ActivationFunction.Linear] false ds wss
          rhoEst2 = some (tail2, []) ∧
      ([Layer.mk [Neuron.mk [0] (-1) 1 [1]] ActivationFunction.Linear,
        Layer.mk [Neuron.mk [1] 0 1 [1]] ActivationFunction.Linear]) =
        A2 :: tail2 := by
  have h : processLayersRev 1 false [0]
      (Layer.mk [Neuron.mk [1] 0 1 [1]] ActivationFunction.Linear ::
        Layer.mk [Neuron.mk [1] 0 1 [1]] ActivationFunction.Linear :: []) true [] []
      [] =
      some ([Layer.mk [Neuron.mk [0] (-1) 1 [1]] ActivationFunction.Linear,
        Layer.mk [Neuron.mk [1] 0 1 [1]] ActivationFunction.Linear], []) := by
    norm_num [processLayersRev, processLayer, processNeurons, processNeuron,
      computeDelta, updateWeights, hiddenSum, hiddenSumAux, List.zip, List.zipWith,
      List.get?, ActivationFunction.name, ActivationFunction.derivative]
  exact recorded_weights_post_update 1 false true
    (Layer.mk [Neuron.mk [1] 0 1 [1]] ActivationFunction.Linear)
    (Layer.mk [Neuron.mk [1] 0 1 [1]] ActivationFunction.Linear) [] [0] [] [] []
    _ _ h

/-- C3: every neuron's parameters are updated immediately after its delta
is computed, inside the processing of that very neuron: each weight `ij`
becomes `weight[ij] - learning_rate * delta * inputs[ij]` and the
threshold becomes `threshold - learning_rate * delta` (supervised path).
Consequently a single-neuron Logistic-output network trained for one step
on one example ends with weight
`old_weight - learning_rate * (output - target) * input`. -/
theorem immediate_update_rule :
    (∀ (lr : ℚ) (isOut : Bool) (af : ActivationFunction) (target nds : List ℚ)
      (nws : List (List ℚ)) (j : ℕ) (n : Neuron) (rhoEst : List ℚ) (n2 : Neuron)
      (d : ℚ) (r2 : List ℚ),
      processNeuron lr false isOut af target nds nws j n rhoEst = some (n2, d, r2) →
      (∀ (ij : ℕ) (w i : ℚ), n.weights.get? ij = some w →
        n.inputs.get? ij = some i →
        n2.weights.get? ij = some (w - lr * d * i)) ∧
      n2.threshold = n.threshold - lr * d) ∧
    (∀ (self : Backpropagation) (forward : Network → List ℚ → Network)
      (net netF : Network) (nr : Neuron) (w x0 t : ℚ) (inp : List ℚ),
      forward net inp = netF →
      netF.layers = [Layer.mk [nr] ActivationFunction.Logistic] →
      nr.weights = [w] → nr.inputs = [x0] →
      ∃ net2, self.train forward net [([t], inp)] 1 false = some (net2, 0) ∧
        firstWeight net2 =
          some (w - self.learning_rate * (nr.local_output - t) * x0)) := by
  constructor
  · intro lr isOut af target nds nws j n rhoEst n2 d r2 h
    obtain ⟨hcd, hw, _, _, _⟩ := processNeuron_some lr false isOut af target nds nws
      j n rhoEst n2 d r2 h
    have hstd := processNeuron_some_std lr false isOut af target nds nws j n rhoEst
      n2 d r2 h (by simp)
    constructor
    · intro ij w i hwi hii
      have := updateWeights_get? lr d n.inputs n.weights n2.weights hw ij w i hwi hii
      rw [this]
      simp only [Option.some.injEq]
      ring
    · rw [hstd.2]
      ring
  · intro self forward net netF nr w x0 t inp hf hl hww hin
    refine ⟨Network.mk [Layer.mk [{ nr with
        weights := [w - self.learning_rate * ((nr.local_output - t) * x0)],
        threshold := nr.threshold - self.learning_rate * ((nr.local_output - t) * 1)
      }] ActivationFunction.Logistic], ?_, ?_⟩
    · simp only [Backpropagation.train, Bool.false_eq_true, if_false, trainLoop,
        trainPass, trainExample, backwardExample, hf, hl, processLayersRev,
        processLayer, processNeurons, processNeuron, computeDelta, updateWeights,
        hww, hin, List.get?, ActivationFunction.name, List.reverse_cons,
        List.reverse_nil, List.nil_append, List.singleton_append]
      norm_num
    · simp only [firstWeight, List.get?, Option.some.injEq]
      ring

/-- C3 witness: one concrete instantiation of each half of the update
rule. -/
theorem immediate_update_rule_witness :
    ((Neuron.mk [0] (0 - 1 * (((1 : ℚ) - 0) * 1)) 1 [1]).weights.get? 0 =
        some (1 - 1 * (1 - 0) * 1) ∧
      (Neuron.mk [0] (0 - 1 * (((1 : ℚ) - 0) * 1)) 1 [1]).threshold =
        0 - 1 * (1 - 0)) ∧
    ∃ net2, (Backpropagation.mk 1 0).train idForward
        (Network.mk [Layer.mk [Neuron.mk [1] 0 1 [1]] ActivationFunction.Logistic])
        [([0], [0])] 1 false = some (net2, 0) ∧
      firstWeight net2 = some (1 - 1 * ((1 : ℚ) - 0) * 1) := by
  constructor
  · have h : processNeuron 1 false true ActivationFunction.Logistic [0] [] [] 0
        (Neuron.mk [1] 0 1 [1]) [] =
        some (Neuron.mk [0] (0 - 1 * (((1 : ℚ) - 0) * 1)) 1 [1], 1 - 0, []) := by
      norm_num [processNeuron, computeDelta, updateWeights, List.get?,
        ActivationFunction.name]
    have := (immediate_update_rule.1 1 true ActivationFunction.Logistic [0] [] [] 0
      (Neuron.mk [1] 0 1 [1]) [] _ _ _ h)
    exact ⟨this.1 0 1 1 rfl rfl, this.2⟩
  · exact immediate_update_rule.2 (Backpropagation.mk 1 0) idForward
      (Network.mk [Layer.mk [Neuron.mk [1] 0 1 [1]] ActivationFunction.Logistic])
      (Network.mk [Layer.mk [Neuron.mk [1] 0 1 [1]] ActivationFunction.Logistic])
      (Neuron.mk [1] 0 1 [1]) 1 1 0 [0] rfl rfl rfl rfl

/-- C8: in unsupervised mode the setup allocates one rho estimate per
neuron of the network's first layer, all zero, with `rho = 0.05` and
`beta = 0.2`; and for every neuron of a non-output layer, processing
replaces `rho_estimates[j]` by
`0.999*rho_estimates[j] + 0.001*local_output` and then, after the
standard threshold update, further decreases the threshold by
`learning_rate * beta * (rho_estimates[j] - rho)` (with the freshly
updated estimate). -/
theorem unsupervised_sparsity_update :
    rho = 0.05 ∧ beta = 0.2 ∧
    (∀ (net : Network) (layer : Layer) (rest : List Layer),
      net.layers = layer :: rest →
      ∃ rs, initialRhoEstimates net = some rs ∧ rs.length = layer.neurons.length ∧
        ∀ r ∈ rs, r = 0) ∧
    (∀ (lr : ℚ) (af : ActivationFunction) (target nds : List ℚ)
      (nws : List (List ℚ)) (j : ℕ) (n : Neuron) (rhoEst : List ℚ) (n2 : Neuron)
      (d : ℚ) (r2 : List ℚ) (rOld : ℚ),
      rhoEst.get? j = some rOld →
      processNeuron lr true false af target nds nws j n rhoEst = some (n2, d, r2) →
      r2 = rhoEst.set j (0.999 * rOld + 0.001 * n.local_output) ∧
      n2.threshold = (n.threshold - lr * (d * 1)) -
        lr * beta * ((0.999 * rOld + 0.001 * n.local_output) - rho)) := by
  refine ⟨rfl, rfl, ?_, ?_⟩
  · intro net layer rest hl
    refine ⟨List.replicate layer.neurons.length 0, ?_, ?_, ?_⟩
    · simp [initialRhoEstimates, hl, List.get?]
    · simp
    · intro r hr
      exact List.eq_of_mem_replicate hr
  · intro lr af target nds nws j n rhoEst n2 d r2 rOld hr h
    obtain ⟨r, hr', hset, hth⟩ := processNeuron_some_unsup lr true false af target
      nds nws j n rhoEst n2 d r2 h rfl
    rw [hr] at hr'
    simp only [Option.some.injEq] at hr'
    subst hr'
    exact ⟨hset, hth⟩

/-- C8 witness: a concrete unsupervised hidden-neuron step. -/
theorem unsupervised_sparsity_update_witness :
    (rho = 0.05 ∧ beta = 0.2) ∧
    (∃ rs, initialRhoEstimates
        (Network.mk [Layer.mk [Neuron.mk [1] 0 1 [1]] ActivationFunction.Logistic])
        = some rs ∧ rs.length = 1 ∧ ∀ r ∈ rs, r = 0) ∧
    ∃ n2 d r2, processNeuron 1 true false ActivationFunction.Logistic [] [1] [[2]] 0
        (Neuron.mk [0] 0 1 [0]) [0] = some (n2, d, r2) ∧
      r2 = ([(0 : ℚ)]).set 0 (0.999 * 0 + 0.001 * 1) ∧
      n2.threshold = ((0 : ℚ) - 1 * (d * 1)) -
        1 * beta * ((0.999 * 0 + 0.001 * 1) - rho) := by
  have h : processNeuron 1 true false ActivationFunction.Logistic [] [1] [[2]] 0
      (Neuron.mk [0] 0 1 [0]) [0] =
      some (Neuron.mk [0] (49 / 5000) 1 [0], 0, [1 / 1000]) := by
    norm_num [processNeuron, computeDelta, updateWeights, hiddenSum, hiddenSumAux,
      List.zip, List.zipWith, List.get?, ActivationFunction.name,
      ActivationFunction.derivative, beta, rho]
  refine ⟨⟨rfl, rfl⟩, ?_, ?_⟩
  · have h0 := (unsupervised_sparsity_update.2.2.1
      (Network.mk [Layer.mk [Neuron.mk [1] 0 1 [1]] ActivationFunction.Logistic])
      (Layer.mk [Neuron.mk [1] 0 1 [1]] ActivationFunction.Logistic) [] rfl)
    simpa using h0
  · obtain ⟨hset, hth⟩ := unsupervised_sparsity_update.2.2.2 1
      ActivationFunction.Logistic [] [1] [[2]] 0 (Neuron.mk [0] 0 1 [0]) [0] _ _ _ 0
      rfl h
    exact ⟨_, _, _, h, hset, hth⟩

/-! ### Merge with no trained copies is the identity -/

theorem mergeWeights_nil : ∀ ws : List ℚ, mergeWeights 0 ws [] = some ws
  | [] => by simp [mergeWeights]
  | w :: ws => by
    simp only [mergeWeights, headsTails, mergeWeights_nil ws]
    norm_num

theorem mergeNeuron_nil (n : Neuron) : mergeNeuron 0 n [] = some n := by
  simp only [mergeNeuron, List.map_nil, mergeWeights_nil, List.sum_nil]
  have hth : (n.threshold + 0) / ((0 : ℕ) + 1) = n.threshold := by norm_num
  rw [hth]

theorem mergeNeurons_nil : ∀ ns : List Neuron, mergeNeurons 0 ns [] = some ns
  | [] => by simp [mergeNeurons]
  | n :: ns => by
    simp only [mergeNeurons, headsTails, mergeNeuron_nil, mergeNeurons_nil ns]

theorem mergeLayers_nil : ∀ ls : List Layer, mergeLayers 0 ls [] = some ls
  | [] => by simp [mergeLayers]
  | l :: ls => by
    simp only [mergeLayers, headsTails, List.map_nil, mergeNeurons_nil,
      mergeLayers_nil ls]

theorem mergeNetworks_nil (net : Network) : mergeNetworks net [] = some net := by
  simp only [mergeNetworks, List.length_nil, List.map_nil, mergeLayers_nil]

/-- C4 (code bug): `self.iterations` is assigned the final value of the
loop variable `iteration_counter`, which is `iterations - 1`, not the
number of completed passes: every successful call records `iterations - 1`,
and a concrete two-iteration run records `1`. -/
theorem train_iterations_attr_eval :
    (∀ (self : Backpropagation) (forward : Network → List ℚ → Network)
      (net : Network) (exs : List (List ℚ × List ℚ)) (iters : ℕ) (unsup : Bool)
      (net2 : Network) (k : ℕ),
      self.train forward net exs iters unsup = some (net2, k) → k = iters - 1) ∧
    ((Backpropagation.mk 1 0).train idForward
        (Network.mk [Layer.mk [Neuron.mk [1] 0 1 [1]] ActivationFunction.Linear])
        [([0], [0])] 2 false).map (fun p => p.2) = some 1 ∧
    ((Backpropagation.mk 1 0).train idForward
        (Network.mk [Layer.mk [Neuron.mk [1] 0 1 [1]] ActivationFunction.Linear])
        [([0], [0])] 2 false).map (fun p => p.2) ≠ some 2 := by
  have h : (Backpropagation.mk 1 0).train idForward
      (Network.mk [Layer.mk [Neuron.mk [1] 0 1 [1]] ActivationFunction.Linear])
      [([0], [0])] 2 false =
      some (Network.mk [Layer.mk [Neuron.mk [-1] (-2) 1 [1]]
        ActivationFunction.Linear], 1) := by
    norm_num [Backpropagation.train, trainLoop, trainPass, trainExample,
      backwardExample, idForward, processLayersRev, processLayer, processNeurons,
      processNeuron, computeDelta, updateWeights, List.get?,
      ActivationFunction.name, ActivationFunction.derivative]
  refine ⟨?_, by rw [h]; rfl, by rw [h]; simp⟩
  intro self forward net exs iters unsup net2 k hk
  simp only [Backpropagation.train] at hk
  cases h1 : (if unsup then initialRhoEstimates net else some []) with
  | none => simp only [h1] at hk; cases hk
  | some r =>
    simp only [h1] at hk
    by_cases hz : iters = 0
    · rw [if_pos hz] at hk
      cases hk
    · rw [if_neg hz] at hk
      cases h2 : trainLoop forward self.learning_rate unsup exs iters (net, r) with
      | none => rw [h2] at hk; cases hk
      | some st =>
        obtain ⟨n3, r3⟩ := st
        simp only [h2, Option.some.injEq, Prod.mk.injEq] at hk
        exact hk.2.symm

/-- C5 counterexample: called with `num_processes = 1` on a single-neuron
Linear network with weight `1`, `parallel_train` leaves the weight at the
plain trained value `0`, not at the claimed average
`(original + trained)/2 = 1/2`. -/
theorem parallel_one_process_not_average :
    (parallel_train idForward (Backpropagation.mk 1 0)
        (Network.mk [Layer.mk [Neuron.mk [1] 0 1 [1]] ActivationFunction.Linear])
        [([0], [0])] 1 false 1).bind firstWeight = some 0 ∧
    firstWeight (Network.mk [Layer.mk [Neuron.mk [1] 0 1 [1]]
      ActivationFunction.Linear]) = some 1 ∧
    ((Backpropagation.mk 1 0).train idForward
        (Network.mk [Layer.mk [Neuron.mk [1] 0 1 [1]] ActivationFunction.Linear])
        [([0], [0])] 1 false).map (fun p => firstWeight p.1) = some (some 0) ∧
    (0 : ℚ) ≠ specHalfAverage 1 0 := by
  have h : (Backpropagation.mk 1 0).train idForward
      (Network.mk [Layer.mk [Neuron.mk [1] 0 1 [1]] ActivationFunction.Linear])
      [([0], [0])] 1 false =
      some (Network.mk [Layer.mk [Neuron.mk [0] (-1) 1 [1]]
        ActivationFunction.Linear], 0) := by
    norm_num [Backpropagation.train, trainLoop, trainPass, trainExample,
      backwardExample, idForward, processLayersRev, processLayer, processNeurons,
      processNeuron, computeDelta, updateWeights, List.get?,
      ActivationFunction.name, ActivationFunction.derivative]
  refine ⟨?_, rfl, ?_, ?_⟩
  · simp only [parallel_train, workerResults, parallelWorkerResult, chunkSlice]
    norm_num [mergeNetworks_nil, firstWeight, List.get?, h]
  · rw [h]
    rfl
  · norm_num [specHalfAverage]

/-- C5 amended: with `num_processes = 1` no workers are spawned, the
orchestrator's own thread trains the original network in place on the
whole example list, and the merge (over zero trained copies) leaves every
parameter at the trained value, so `parallel_train` coincides with the
plain `train` result — not with the average of original and trained
parameters. -/
theorem parallel_one_process_eq_train (forward : Network → List ℚ → Network)
    (trainer : Backpropagation) (net : Network)
    (exs : List (List ℚ × List ℚ)) (iters : ℕ) (unsup : Bool)
    (hne : 0 < exs.length) :
    parallel_train forward trainer net exs iters unsup 1 =
      (trainer.train forward net exs iters unsup).map Prod.fst := by
  have hnp : ¬ (1 > exs.length) := by omega
  simp only [parallel_train, if_neg hnp, one_ne_zero, if_false, Nat.div_one,
    List.range_zero, workerResults, Nat.sub_self, parallelWorkerResult, chunkSlice,
    Nat.zero_mul, List.drop_zero, List.take_length]
  cases h : trainer.train forward net exs iters unsup with
  | none => rfl
  | some p => simp [mergeNetworks_nil]

/-- C5 amended witness. -/
theorem parallel_one_process_eq_train_witness :
    parallel_train idForward (Backpropagation.mk 1 0)
        (Network.mk [Layer.mk [Neuron.mk [2] 0 1 [1]] ActivationFunction.Linear])
        [([0], [0])] 1 false 1 =
      ((Backpropagation.mk 1 0).train idForward
        (Network.mk [Layer.mk [Neuron.mk [2] 0 1 [1]] ActivationFunction.Linear])
        [([0], [0])] 1 false).map Prod.fst :=
  parallel_one_process_eq_train idForward (Backpropagation.mk 1 0)
    (Network.mk [Layer.mk [Neuron.mk [2] 0 1 [1]] ActivationFunction.Linear])
    [([0], [0])] 1 false (by simp)

theorem workerResults_get? (forward : Network → List ℚ → Network)
    (trainer : Backpropagation) (net : Network)
    (exs : List (List ℚ × List ℚ)) (iters : ℕ) (unsup : Bool) (chunk : ℕ) :
    ∀ (ps : List ℕ) (ts : List Network),
      workerResults forward trainer net exs iters unsup chunk ps = some ts →
      ts.length = ps.length ∧
      ∀ (i p : ℕ), ps.get? i = some p →
        ∃ t, ts.get? i = some t ∧
          parallelWorkerResult forward trainer net exs iters unsup chunk p = some t
  | [], ts, h => by
    simp only [workerResults, Option.some.injEq] at h
    subst h
    exact ⟨rfl, by intro i p hp; simp at hp⟩
  | p0 :: ps, ts, h => by
    simp only [workerResults] at h
    cases h1 : parallelWorkerResult forward trainer net exs iters unsup chunk p0 with
    | none => rw [h1] at h; cases h
    | some t0 =>
      simp only [h1] at h
      cases h2 : workerResults forward trainer net exs iters unsup chunk ps with
      | none => rw [h2] at h; cases h
      | some ts0 =>
        simp only [h2, Option.some.injEq] at h
        subst h
        obtain ⟨hlen, hget⟩ := workerResults_get? forward trainer net exs iters unsup
          chunk ps ts0 h2
        refine ⟨by simp [hlen], ?_⟩
        intro i p hp
        match i, hp with
        | 0, hp =>
          simp only [List.get?, Option.some.injEq] at hp
          exact ⟨t0, rfl, by rw [← hp]; exact h1⟩
        | (i' + 1), hp =>
          simp only [List.get?] at hp ⊢
          exact hget i' p hp

/-- C6 counterexample: the orchestrator's in-thread worker runs `train` on
the original network object itself, so the network handed to the merge
step differs from the call-time original: with one process, the original
single weight `1` has already become `0` when the merge starts. -/
theorem main_worker_mutates_original :
    parallelWorkerResult idForward (Backpropagation.mk 1 0)
        (Network.mk [Layer.mk [Neuron.mk [1] 0 1 [1]] ActivationFunction.Linear])
        [([0], [0])] 1 false 1 0 =
      some (Network.mk [Layer.mk [Neuron.mk [0] (-1) 1 [1]]
        ActivationFunction.Linear]) ∧
    (Network.mk [Layer.mk [Neuron.mk [0] (-1) 1 [1]] ActivationFunction.Linear]) ≠
      (Network.mk [Layer.mk [Neuron.mk [1] 0 1 [1]] ActivationFunction.Linear]) := by
  constructor
  · norm_num [parallelWorkerResult, chunkSlice, Backpropagation.train, trainLoop,
      trainPass, trainExample, backwardExample, idForward, processLayersRev,
      processLayer, processNeurons, processNeuron, computeDelta, updateWeights,
      List.get?, ActivationFunction.name, ActivationFunction.derivative]
  · intro hc
    simp only [Network.mk.injEq, List.cons.injEq, Layer.mk.injEq, Neuron.mk.injEq,
      and_true] at hc
    exact absurd hc.1 (by norm_num)

/-- C6 amended: spawned workers each run `train` from the call-time
network value (independent copies), but the orchestrator's own thread
runs `train` on the original network itself over the last chunk, and the
merge step receives that trained original (not the pristine call-time
parameters) together with the workers' results. -/
theorem parallel_structure (forward : Network → List ℚ → Network)
    (trainer : Backpropagation) (net : Network) (exs : List (List ℚ × List ℚ))
    (iters : ℕ) (unsup : Bool) (np : ℕ) (out : Network)
    (h : parallel_train forward trainer net exs iters unsup np = some out) :
    ∃ trained mainNet,
      workerResults forward trainer net exs iters unsup
        (exs.length / (if np > exs.length then exs.length else np))
        (List.range ((if np > exs.length then exs.length else np) - 1)) =
        some trained ∧
      trained.length = (if np > exs.length then exs.length else np) - 1 ∧
      (∀ (i p : ℕ),
        (List.range ((if np > exs.length then exs.length else np) - 1)).get? i =
          some p →
        ∃ t, trained.get? i = some t ∧
          (trainer.train forward net
            (chunkSlice exs
              (exs.length / (if np > exs.length then exs.length else np)) p)
            iters unsup).map Prod.fst = some t) ∧
      (trainer.train forward net
        (chunkSlice exs (exs.length / (if np > exs.length then exs.length else np))
          ((if np > exs.length then exs.length else np) - 1)) iters unsup).map
        Prod.fst = some mainNet ∧
      mergeNetworks mainNet trained = some out := by
  simp only [parallel_train] at h
  by_cases hz : (if np > exs.length then exs.length else np) = 0
  · rw [if_pos hz] at h
    cases h
  · rw [if_neg hz] at h
    cases h1 : workerResults forward trainer net exs iters unsup
        (exs.length / (if np > exs.length then exs.length else np))
        (List.range ((if np > exs.length then exs.length else np) - 1)) with
    | none => rw [h1] at h; cases h
    | some trained =>
      rw [h1] at h
      cases h2 : parallelWorkerResult forward trainer net exs iters unsup
          (exs.length / (if np > exs.length then exs.length else np))
          ((if np > exs.length then exs.length else np) - 1) with
      | none => rw [h2] at h; cases h
      | some mainNet =>
        rw [h2] at h
        obtain ⟨hlen, hget⟩ := workerResults_get? forward trainer net exs iters
          unsup (exs.length / (if np > exs.length then exs.length else np))
          (List.range ((if np > exs.length then exs.length else np) - 1)) trained h1
        refine ⟨trained, mainNet, rfl, by simp [hlen], ?_, h2, h⟩
        intro i p hp
        exact hget i p hp

/-- C6 amended witness: a concrete two-process run. -/
theorem parallel_structure_witness :
    ∃ trained mainNet,
      workerResults idForward (Backpropagation.mk 1 0)
        (Network.mk [Layer.mk [Neuron.mk [1] 0 1 [1]] ActivationFunction.Linear])
        [([0], [0]), ([0], [1])] 1 false
        ([([(0 : ℚ)], [(0 : ℚ)]), ([0], [1])].length /
          (if 2 > [([(0 : ℚ)], [(0 : ℚ)]), ([0], [1])].length then
            [([(0 : ℚ)], [(0 : ℚ)]), ([0], [1])].length else 2))
        (List.range ((if 2 > [([(0 : ℚ)], [(0 : ℚ)]), ([0], [1])].length then
          [([(0 : ℚ)], [(0 : ℚ)]), ([0], [1])].length else 2) - 1)) = some trained ∧
      trained.length = (if 2 > [([(0 : ℚ)], [(0 : ℚ)]), ([0], [1])].length then
        [([(0 : ℚ)], [(0 : ℚ)]), ([0], [1])].length else 2) - 1 ∧
      (∀ (i p : ℕ),
        (List.range ((if 2 > [([(0 : ℚ)], [(0 : ℚ)]), ([0], [1])].length then
          [([(0 : ℚ)], [(0 : ℚ)]), ([0], [1])].length else 2) - 1)).get? i =
          some p →
        ∃ t, trained.get? i = some t ∧
          ((Backpropagation.mk 1 0).train idForward
            (Network.mk [Layer.mk [Neuron.mk [1] 0 1 [1]]
              ActivationFunction.Linear])
            (chunkSlice [([0], [0]), ([0], [1])]
              ([([(0 : ℚ)], [(0 : ℚ)]), ([0], [1])].length /
                (if 2 > [([(0 : ℚ)], [(0 : ℚ)]), ([0], [1])].length then
                  [([(0 : ℚ)], [(0 : ℚ)]), ([0], [1])].length else 2)) p)
            1 false).map Prod.fst = some t) ∧
      ((Backpropagation.mk 1 0).train idForward
        (Network.mk [Layer.mk [Neuron.mk [1] 0 1 [1]] ActivationFunction.Linear])
        (chunkSlice [([0], [0]), ([0], [1])]
          ([([(0 : ℚ)], [(0 : ℚ)]), ([0], [1])].length /
            (if 2 > [([(0 : ℚ)], [(0 : ℚ)]), ([0], [1])].length then
              [([(0 : ℚ)], [(0 : ℚ)]), ([0], [1])].length else 2))
          ((if 2 > [([(0 : ℚ)], [(0 : ℚ)]), ([0], [1])].length then
            [([(0 : ℚ)], [(0 : ℚ)]), ([0], [1])].length else 2) - 1)) 1 false).map
        Prod.fst = some mainNet ∧
      mergeNetworks mainNet trained =
        some (Network.mk [Layer.mk [Neuron.mk [0] (-1) 1 [1]]
          ActivationFunction.Linear]) := by
  have h : parallel_train idForward (Backpropagation.mk 1 0)
      (Network.mk [Layer.mk [Neuron.mk [1] 0 1 [1]] ActivationFunction.Linear])
      [([0], [0]), ([0], [1])] 1 false 2 =
      some (Network.mk [Layer.mk [Neuron.mk [0] (-1) 1 [1]]
        ActivationFunction.Linear]) := by
    norm_num [parallel_train, workerResults, parallelWorkerResult, chunkSlice,
      Backpropagation.train, trainLoop, trainPass, trainExample, backwardExample,
      idForward, processLayersRev, processLayer, processNeurons, processNeuron,
      computeDelta, updateWeights, List.get?, ActivationFunction.name,
      ActivationFunction.derivative, mergeNetworks, mergeLayers, mergeNeurons,
      mergeNeuron, mergeWeights, headsTails, List.range_succ]
  exact parallel_structure idForward (Backpropagation.mk 1 0)
    (Network.mk [Layer.mk [Neuron.mk [1] 0 1 [1]] ActivationFunction.Linear])
    [([0], [0]), ([0], [1])] 1 false 2 _ h

theorem backwardExample_isSome_eq (lr : ℚ) (unsupervised : Bool) (net : Network)
    (target rhoEst : List ℚ) :
    (backwardExample lr unsupervised net target rhoEst).isSome =
      (processLayersRev lr unsupervised target net.layers.reverse true [] []
        rhoEst).isSome := by
  simp only [backwardExample]
  cases processLayersRev lr unsupervised target net.layers.reverse true [] []
      rhoEst with
  | none => rfl
  | some y =>
    obtain ⟨a, b⟩ := y
    rfl

/-- C10: with `unsupervised` set, all `rho_estimates[j]` accesses of one
example's backward pass stay in range precisely when every non-output
layer has at most as many neurons as the network's first layer (whose
width sizes the estimate list); and when the backward pass of the first
example fails, the whole `train` call fails. -/
theorem rho_estimates_range_iff :
    (∀ (self : Backpropagation) (net : Network) (target : List ℚ) (l0 : Layer)
      (rest : List Layer),
      net.layers = l0 :: rest →
      (∀ L ∈ net.layers, ∀ n ∈ L.neurons, n.inputs.length ≤ n.weights.length) →
      List.Chain' (fun X Y => ∀ n ∈ Y.neurons,
        X.neurons.length ≤ n.weights.length) net.layers →
      (∀ L ∈ net.layers.reverse.take 1, L.neurons.length ≤ target.length) →
      ((backwardExample self.learning_rate true net target
          (List.replicate l0.neurons.length 0)).isSome ↔
        ∀ L ∈ net.layers.dropLast, L.neurons.length ≤ l0.neurons.length)) ∧
    (∀ (self : Backpropagation) (forward : Network → List ℚ → Network)
      (net : Network) (ex : List ℚ × List ℚ) (exs : List (List ℚ × List ℚ))
      (n : ℕ) (r : List ℚ),
      initialRhoEstimates net = some r →
      backwardExample self.learning_rate true (forward net ex.2) ex.1 r = none →
      Backpropagation.train self forward net (ex :: exs) (n + 1) true = none) := by
  constructor
  · intro self net target l0 rest hl hshape hchain hlast
    rw [backwardExample_isSome_eq]
    have hiff := processLayersRev_isSome self.learning_rate target net.layers.reverse
      true [] [] (List.replicate l0.neurons.length 0)
      (by intro L hL; exact hshape L (List.mem_reverse.mp hL))
      (List.chain'_reverse.mpr hchain)
      (fun _ => hlast)
      (fun hfalse => by cases hfalse)
    rw [hiff]
    rw [if_pos rfl, List.drop_one, List.tail_reverse]
    simp only [List.mem_reverse, List.length_replicate]
  · intro self forward net ex exs n r hinit hb
    simp only [Backpropagation.train, if_true, hinit, Nat.succ_ne_zero, if_false,
      trainLoop, trainPass, trainExample, hb]

/-- C10 witness: a 1-2-1 network whose middle (hidden) layer is wider than
the first layer: the iff instantiates with both sides false, and the
unsupervised `train` call fails. -/
theorem rho_estimates_range_iff_witness :
    (((backwardExample 1 true
        (Network.mk [Layer.mk [Neuron.mk [1] 0 (1/2) [1]] ActivationFunction.Logistic,
          Layer.mk [Neuron.mk [1] 0 (1/2) [1], Neuron.mk [1] 0 (1/2) [1]]
            ActivationFunction.Logistic,
          Layer.mk [Neuron.mk [1, 1] 0 (1/2) [1, 1]] ActivationFunction.Logistic])
        [1] (List.replicate (1 : ℕ) 0)).isSome ↔
      ∀ L ∈ (Network.mk [Layer.mk [Neuron.mk [1] 0 (1/2) [1]]
          ActivationFunction.Logistic,
        Layer.mk [Neuron.mk [1] 0 (1/2) [1], Neuron.mk [1] 0 (1/2) [1]]
          ActivationFunction.Logistic,
        Layer.mk [Neuron.mk [1, 1] 0 (1/2) [1, 1]]
          ActivationFunction.Logistic]).layers.dropLast,
        L.neurons.length ≤ 1)) ∧
    Backpropagation.train (Backpropagation.mk 1 0) idForward
      (Network.mk [Layer.mk [Neuron.mk [1] 0 (1/2) [1]] ActivationFunction.Logistic,
        Layer.mk [Neuron.mk [1] 0 (1/2) [1], Neuron.mk [1] 0 (1/2) [1]]
          ActivationFunction.Logistic,
        Layer.mk [Neuron.mk [1, 1] 0 (1/2) [1, 1]] ActivationFunction.Logistic])
      [([1], [1])] 1 true = none := by
  constructor
  · have := rho_estimates_range_iff.1 (Backpropagation.mk 1 0)
      (Network.mk [Layer.mk [Neuron.mk [1] 0 (1/2) [1]] ActivationFunction.Logistic,
        Layer.mk [Neuron.mk [1] 0 (1/2) [1], Neuron.mk [1] 0 (1/2) [1]]
          ActivationFunction.Logistic,
        Layer.mk [Neuron.mk [1, 1] 0 (1/2) [1, 1]] ActivationFunction.Logistic])
      [1] (Layer.mk [Neuron.mk [1] 0 (1/2) [1]] ActivationFunction.Logistic)
      [Layer.mk [Neuron.mk [1] 0 (1/2) [1], Neuron.mk [1] 0 (1/2) [1]]
          ActivationFunction.Logistic,
        Layer.mk [Neuron.mk [1, 1] 0 (1/2) [1, 1]] ActivationFunction.Logistic]
      rfl (by decide)
      (by simp [List.chain'_cons, List.chain'_singleton])
      (by decide)
    exact this
  · have hb : backwardExample (Backpropagation.mk 1 0).learning_rate true
        (idForward (Network.mk [Layer.mk [Neuron.mk [1] 0 (1/2) [1]]
            ActivationFunction.Logistic,
          Layer.mk [Neuron.mk [1] 0 (1/2) [1], Neuron.mk [1] 0 (1/2) [1]]
            ActivationFunction.Logistic,
          Layer.mk [Neuron.mk [1, 1] 0 (1/2) [1, 1]] ActivationFunction.Logistic])
          [1]) [1] [0] = none := by
      norm_num [backwardExample, idForward, processLayersRev, processLayer,
        processNeurons, processNeuron, computeDelta, updateWeights, hiddenSum,
        hiddenSumAux, List.zip, List.zipWith, List.get?, ActivationFunction.name,
        ActivationFunction.derivative, beta, rho]
    exact rho_estimates_range_iff.2 (Backpropagation.mk 1 0) idForward
      (Network.mk [Layer.mk [Neuron.mk [1] 0 (1/2) [1]] ActivationFunction.Logistic,
        Layer.mk [Neuron.mk [1] 0 (1/2) [1], Neuron.mk [1] 0 (1/2) [1]]
          ActivationFunction.Logistic,
        Layer.mk [Neuron.mk [1, 1] 0 (1/2) [1, 1]] ActivationFunction.Logistic])
      ([1], [1]) [] 0 [0] rfl hb

/-! ### The Logistic activation over the reals -/

theorem exp_thousand_gt_floatMax : floatMax < Real.exp 1000 := by
  have he : (2.7 : ℝ) < Real.exp 1 := lt_trans (by norm_num) Real.exp_one_gt_d9
  have hpow : ((2.7 : ℝ)) ^ (1000 : ℕ) < (Real.exp 1) ^ (1000 : ℕ) := by
    apply pow_lt_pow_left₀ he (by norm_num)
    norm_num
  have hexp : Real.exp 1000 = (Real.exp 1) ^ (1000 : ℕ) := by
    rw [← Real.exp_nat_mul]
    norm_num
  have hbig : floatMax < (2.7 : ℝ) ^ (1000 : ℕ) := by
    rw [floatMax]
    norm_num
  rw [hexp]
  exact lt_trans hbig hpow

theorem exp_neg_thousand_small : Real.exp (-1000) < 0.0000000000001 := by
  have h100 : (101 : ℝ) ≤ Real.exp 100 := by
    have := Real.add_one_le_exp (100 : ℝ)
    linarith
  have hp : ((101 : ℝ)) ^ (10 : ℕ) ≤ (Real.exp 100) ^ (10 : ℕ) :=
    pow_le_pow_left₀ (by norm_num) h100 10
  have hexp : Real.exp 1000 = (Real.exp 100) ^ (10 : ℕ) := by
    rw [← Real.exp_nat_mul]
    norm_num
  have hgt : (10 : ℝ) ^ (13 : ℕ) < Real.exp 1000 := by
    rw [hexp]
    calc (10 : ℝ) ^ (13 : ℕ) < (101 : ℝ) ^ (10 : ℕ) := by norm_num
    _ ≤ (Real.exp 100) ^ (10 : ℕ) := hp
  rw [Real.exp_neg]
  have hpos : (0 : ℝ) < (10 : ℝ) ^ (13 : ℕ) := by positivity
  have : (Real.exp 1000)⁻¹ < ((10 : ℝ) ^ (13 : ℕ))⁻¹ := by
    exact inv_strictAnti₀ hpos hgt
  calc (Real.exp 1000)⁻¹ < ((10 : ℝ) ^ (13 : ℕ))⁻¹ := this
  _ ≤ 0.0000000000001 := by norm_num

/-- C7 counterexample: `activate(1000)` is not `1 - 1e-13`: the overflow
handler cannot trigger for positive input (there `e^(-x) ≤ 1`), so the
result is `1/(1+e^(-1000))`, which lies strictly above `1 - 1e-13`. -/
theorem logistic_activate_pos_overflow_false :
    (0.9999999999999 : ℝ) < LogisticActivationFunction.activate 1000 ∧
    LogisticActivationFunction.activate 1000 = 1.0 / (1 + Real.exp (-1000)) := by
  have hcond : ¬ (floatMax < Real.exp (-1.0 * 1000)) := by
    have h1 : Real.exp (-1.0 * 1000) ≤ 1 := by
      rw [show (-1.0 * 1000 : ℝ) = -1000 by norm_num]
      calc Real.exp (-1000) ≤ Real.exp 0 := Real.exp_le_exp.mpr (by norm_num)
      _ = 1 := Real.exp_zero
    have h2 : (1 : ℝ) ≤ floatMax := by
      rw [floatMax]
      norm_num
    linarith
  have hval : LogisticActivationFunction.activate 1000 =
      1.0 / (1 + Real.exp (-1000)) := by
    rw [LogisticActivationFunction.activate, if_neg hcond]
    rw [show (-1.0 * (1000 : ℝ)) = -1000 by norm_num]
  have htpos : (0 : ℝ) < Real.exp (-1000) := Real.exp_pos _
  have htsmall := exp_neg_thousand_small
  have hgt : (0.9999999999999 : ℝ) < 1.0 / (1 + Real.exp (-1000)) := by
    rw [lt_div_iff₀ (by linarith)]
    nlinarith
  exact ⟨by rw [hval]; exact hgt, hval⟩

/-- C7 amended: the Logistic `activate` never returns exactly 0 or 1; on
overflow (possible only for very negative inputs, e.g. `x = -1000`) it
returns the clamp value `1e-13`; for every non-overflowing input it
returns `1/(1+e^(-x))` — in particular `activate(1000)` is
`1/(1+e^(-1000))`, not the upper clamp `1 - 1e-13`. -/
theorem logistic_activate_bounds :
    (∀ x : ℝ, 0 < LogisticActivationFunction.activate x ∧
      LogisticActivationFunction.activate x < 1) ∧
    LogisticActivationFunction.activate (-1000) = 0.0000000000001 ∧
    (∀ x : ℝ, ¬ (floatMax < Real.exp (-1.0 * x)) →
      LogisticActivationFunction.activate x = 1.0 / (1 + Real.exp (-1.0 * x))) ∧
    LogisticActivationFunction.activate 1000 = 1.0 / (1 + Real.exp (-1000)) := by
  have hmain : ∀ x : ℝ, ¬ (floatMax < Real.exp (-1.0 * x)) →
      LogisticActivationFunction.activate x = 1.0 / (1 + Real.exp (-1.0 * x)) := by
    intro x hx
    rw [LogisticActivationFunction.activate, if_neg hx]
  refine ⟨?_, ?_, hmain, ?_⟩
  · intro x
    rw [LogisticActivationFunction.activate]
    by_cases hc : floatMax < Real.exp (-1.0 * x)
    · rw [if_pos hc]
      by_cases hx : x < 0
      · rw [if_pos hx]
        norm_num
      · rw [if_neg hx]
        norm_num
    · rw [if_neg hc]
      have hpos := Real.exp_pos (-1.0 * x)
      constructor
      · positivity
      · rw [div_lt_one (by linarith)]
        linarith
  · have hcond : floatMax < Real.exp (-1.0 * (-1000 : ℝ)) := by
      rw [show (-1.0 * (-1000 : ℝ)) = 1000 by norm_num]
      exact exp_thousand_gt_floatMax
    rw [LogisticActivationFunction.activate, if_pos hcond, if_pos (by norm_num :
      (-1000 : ℝ) < 0)]
  · have hcond : ¬ (floatMax < Real.exp (-1.0 * (1000 : ℝ))) := by
      have h1 : Real.exp (-1.0 * 1000) ≤ 1 := by
        rw [show (-1.0 * 1000 : ℝ) = -1000 by norm_num]
        calc Real.exp (-1000) ≤ Real.exp 0 := Real.exp_le_exp.mpr (by norm_num)
        _ = 1 := Real.exp_zero
      have h2 : (1 : ℝ) ≤ floatMax := by
        rw [floatMax]
        norm_num
      linarith
    rw [hmain 1000 hcond, show (-1.0 * (1000 : ℝ)) = -1000 by norm_num]

/-- C7 amended witness: `x = 0` does not overflow and takes the main
branch. -/
theorem logistic_activate_bounds_witness :
    ¬ (floatMax < Real.exp (-1.0 * 0)) ∧
    LogisticActivationFunction.activate 0 = 1.0 / (1 + Real.exp (-1.0 * 0)) := by
  have h0 : ¬ (floatMax < Real.exp (-1.0 * 0)) := by
    rw [show (-1.0 * (0 : ℝ)) = 0 by norm_num, Real.exp_zero, floatMax]
    norm_num
  exact ⟨h0, logistic_activate_bounds.2.2.1 0 h0⟩

end Pine
